import Mathlib

/-!
# Verification of the File Access & Serialization layers

Shallow embedding of `app/data/yaml_handler.py`, `app/data/file_handler.py`
and `app/core/exceptions.py`.  Pure transformation code is translated into
executable Lean functions; the stateful file/lock operations are translated
into explicit state passing over a filesystem model.  The external
collaborators (ruamel.yaml, pydantic) are modelled from the spec's on-disk
contract and their documented behaviour, since their source is not part of
this repository.
-/

namespace Chosen

/-! ## JSON-compatible trees

`YVal` is the JSON-compatible intermediate representation produced by
`model_dump(mode="json")` in `YAMLHandler.serialize`: primitives, ordered
sequences and key-ordered mappings (spec glossary, "JSON-compatible tree").
-/

inductive YVal : Type where
  | null : YVal
  | bool : Bool → YVal
  | int : Int → YVal
  | str : String → YVal
  | list : List YVal → YVal
  | map : List (String × YVal) → YVal

/-! ## Scalar rendering (double-quoted strings, ints, booleans, null)

Modelled from the spec: ruamel.yaml is configured in `YAMLHandler.__init__`
with `preserve_quotes`, `default_flow_style=False`, `allow_unicode=True`
and `width=4096`; strings that need quoting (multi-line bodies, YAML-special
characters) are emitted double-quoted on a single line with `\n`, `\"` and
`\\` escapes, other scalars in their plain form.  In this model every
string is emitted double-quoted, which is a sound quoting policy for the
same scalar language.
-/

def escChar (c : Char) : List Char :=
  if c = '\\' then ['\\', '\\']
  else if c = '"' then ['\\', '"']
  else if c = '\n' then ['\\', 'n']
  else [c]

def escape : List Char → List Char
  | [] => []
  | c :: rest => escChar c ++ escape rest

def unescape : List Char → Option (List Char)
  | [] => some []
  | c :: rest =>
    if c = '\\' then
      match rest with
      | [] => none
      | d :: rest2 =>
        if d = '\\' then (unescape rest2).map (fun l => '\\' :: l)
        else if d = '"' then (unescape rest2).map (fun l => '"' :: l)
        else if d = 'n' then (unescape rest2).map (fun l => '\n' :: l)
        else none
    else (unescape rest).map (fun l => c :: l)

/-- Decimal digit character for a digit value `d < 10`. -/
def digitChar (d : Nat) : Char := Char.ofNat (48 + d)

/-- Big-endian decimal digits of a positive natural number. -/
def renderNat (n : Nat) : List Char := ((Nat.digits 10 n).map digitChar).reverse

/-- Decimal rendering of an integer, as ruamel emits `int` scalars. -/
def renderInt (i : Int) : List Char :=
  if i < 0 then '-' :: renderNat i.natAbs
  else if i = 0 then ['0']
  else renderNat i.toNat

def digitVal (c : Char) : Option Nat :=
  if 48 ≤ c.toNat ∧ c.toNat ≤ 57 then some (c.toNat - 48) else none

def parseDigitsAux (acc : Nat) : List Char → Option Nat
  | [] => some acc
  | c :: rest =>
    match digitVal c with
    | none => none
    | some d => parseDigitsAux (acc * 10 + d) rest

def parseNatChars (cs : List Char) : Option Nat :=
  if cs = [] then none else parseDigitsAux 0 cs

/-- Double-quoted single-line rendering of a string scalar. -/
def renderStr (s : String) : List Char := '"' :: (escape s.toList ++ ['"'])

/-- Flat (single-token) rendering of a scalar or empty container; `none` for
nonempty sequences and mappings, which render in block style (spec §6:
empty sequence renders as `[]`, empty mapping as `{}`). -/
def renderFlat : YVal → Option (List Char)
  | .null => some "null".toList
  | .bool true => some "true".toList
  | .bool false => some "false".toList
  | .int i => some (renderInt i)
  | .str s => some (renderStr s)
  | .list [] => some "[]".toList
  | .map [] => some "{}".toList
  | .list (_ :: _) => none
  | .map (_ :: _) => none

def parseFlatCore : List Char → Option YVal
  | [] => none
  | c :: rest =>
    if c = '"' then
      match rest.getLast? with
      | some d =>
        if d = '"' then (unescape rest.dropLast).map (fun l => .str (String.mk l))
        else none
      | none => none
    else if c = '-' then (parseNatChars rest).map (fun n => .int (-(Int.ofNat n)))
    else (parseNatChars (c :: rest)).map (fun n => .int (Int.ofNat n))

/-- Parse a flat scalar token back to a `YVal`. -/
def parseFlat (cs : List Char) : Option YVal :=
  if cs = "null".toList then some .null
  else if cs = "true".toList then some (.bool true)
  else if cs = "false".toList then some (.bool false)
  else if cs = "[]".toList then some (.list [])
  else if cs = "{}".toList then some (.map [])
  else parseFlatCore cs

/-! ## Indentation trees

Block-style YAML is a sequence of lines whose nesting is given by
indentation (two spaces per level, children more indented than their
parent).  `LTree` is that structure; `flattenF` renders a forest to
indented lines and `unflattenF` parses it back.
-/

/-- A block-structured line: indentation depth and content. -/
abbrev Line := Nat × List Char

/-- One content line plus its more-indented children. -/
inductive LTree : Type where
  | node : List Char → List LTree → LTree

mutual

def flattenT (ind : Nat) : LTree → List Line
  | .node c ts => (ind, c) :: flattenF (ind + 2) ts

def flattenF (ind : Nat) : List LTree → List Line
  | [] => []
  | t :: ts => flattenT ind t ++ flattenF ind ts

end

def unflattenF (ls : List Line) (ind : Nat) :
    Option (List LTree × { rest : List Line // rest.length ≤ ls.length }) :=
  match ls with
  | [] => some ([], ⟨[], Nat.le_refl 0⟩)
  | (i, c) :: rest =>
    if i < ind then some ([], ⟨(i, c) :: rest, Nat.le_refl _⟩)
    else if i = ind then
      match unflattenF rest (ind + 2) with
      | none => none
      | some (children, ⟨rest1, h1⟩) =>
        match unflattenF rest1 ind with
        | none => none
        | some (sibs, ⟨rest2, h2⟩) =>
          some (.node c children :: sibs, ⟨rest2, by
            simp only [List.length_cons]
            omega⟩)
    else none
termination_by ls.length
decreasing_by
  · simp only [List.length_cons]; omega
  · simp only [List.length_cons]; omega

/-- Parse indented lines into a forest, also returning the unconsumed tail. -/
def unflatten (ls : List Line) (ind : Nat) : Option (List LTree × List Line) :=
  (unflattenF ls ind).map (fun p => (p.1, p.2.val))

/-- The continuation after a forest at indent `ind`: either nothing, or a
line that is indented strictly less. -/
def stopsAt (ls : List Line) (ind : Nat) : Prop :=
  match ls with
  | [] => True
  | (i, _) :: _ => i < ind

/-! ## Values as line trees

Mapping entries render as `key: scalar` or `key:` followed by an indented
block; sequence items render as `- scalar` (spec §6: "list items rendered
as `- item`") or `-` followed by an indented block.  Keys are Python
identifier-like field names (pydantic model fields).
-/

def validKeyChar (c : Char) : Bool := c.isAlphanum || c = '_'

def validKey (s : String) : Bool := !s.toList.isEmpty && s.toList.all validKeyChar

/-- Flat rendering with a junk default (only used where `renderFlat` is `some`). -/
def flatOf (v : YVal) : List Char := (renderFlat v).getD []

mutual

def entryTree : String × YVal → LTree
  | (k, .list (x :: xs)) => .node (k.toList ++ [':']) (itemsForest (x :: xs))
  | (k, .map (e :: es)) => .node (k.toList ++ [':']) (entriesForest (e :: es))
  | (k, v) => .node (k.toList ++ ':' :: ' ' :: flatOf v) []

def itemTree : YVal → LTree
  | .list (x :: xs) => .node ['-'] (itemsForest (x :: xs))
  | .map (e :: es) => .node ['-'] (entriesForest (e :: es))
  | v => .node ('-' :: ' ' :: flatOf v) []

def entriesForest : List (String × YVal) → List LTree
  | [] => []
  | e :: es => entryTree e :: entriesForest es

def itemsForest : List YVal → List LTree
  | [] => []
  | v :: vs => itemTree v :: itemsForest vs

end

mutual

def treeEntry : LTree → Option (String × YVal)
  | .node c ts =>
    match c.drop (c.takeWhile validKeyChar).length, ts with
    | ':' :: ' ' :: f, [] =>
      if (c.takeWhile validKeyChar).isEmpty then none
      else (parseFlat f).map (fun v => (String.mk (c.takeWhile validKeyChar), v))
    | [':'], t :: rest =>
      if (c.takeWhile validKeyChar).isEmpty then none
      else (forestValOf (t :: rest)).map (fun v => (String.mk (c.takeWhile validKeyChar), v))
    | _, _ => none
termination_by t => (sizeOf t, 0)

def treeItem : LTree → Option YVal
  | .node c ts =>
    match c, ts with
    | '-' :: ' ' :: f, [] => parseFlat f
    | ['-'], t :: rest => forestValOf (t :: rest)
    | _, _ => none
termination_by t => (sizeOf t, 0)

def treeEntries : List LTree → Option (List (String × YVal))
  | [] => some []
  | t :: ts =>
    match treeEntry t, treeEntries ts with
    | some e, some es => some (e :: es)
    | _, _ => none
termination_by ls => (sizeOf ls, 0)

def treeItems : List LTree → Option (List YVal)
  | [] => some []
  | t :: ts =>
    match treeItem t, treeItems ts with
    | some v, some vs => some (v :: vs)
    | _, _ => none
termination_by ls => (sizeOf ls, 0)

def forestValOf : List LTree → Option YVal
  | [] => none
  | .node c ts :: rest =>
    if c.head? = some '-' then
      match treeItems (.node c ts :: rest) with
      | some vs => some (.list vs)
      | none => none
    else
      match treeEntries (.node c ts :: rest) with
      | some es => some (.map es)
      | none => none
termination_by ls => (sizeOf ls, 1)

end

/-! Well-formed trees: every mapping key is a nonempty identifier-like name
(pydantic field names), at every nesting level. -/

mutual

def wfVal : YVal → Bool
  | .list vs => wfItems vs
  | .map es => wfEntries es
  | _ => true

def wfEntries : List (String × YVal) → Bool
  | [] => true
  | (k, v) :: es => validKey k && wfVal v && wfEntries es

def wfItems : List YVal → Bool
  | [] => true
  | v :: vs => wfVal v && wfItems vs

end

/-! ## Documents as strings

A YAML document is the indented lines of the value's forest, joined with
newlines and a trailing newline.  Loading splits on newlines, strips
indentation, and parses the forest; an empty document loads as null
(ruamel's `load` returns `None` for empty input).
-/

/-- Contents that can appear as a line of a block-style forest: nonempty,
not starting with a space, single-line, and not themselves a flat scalar. -/
def goodContent (cs : List Char) : Bool :=
  !cs.isEmpty && !(decide (cs.head? = some ' ')) && !(decide ('\n' ∈ cs))
    && (parseFlat cs).isNone

mutual

def goodT : LTree → Bool
  | .node c ts => goodContent c && goodF ts

def goodF : List LTree → Bool
  | [] => true
  | t :: ts => goodT t && goodF ts

end

/-- Parse a document that is a block-style forest. -/
def parseTop (ls : List Line) : Option YVal :=
  match unflatten ls 0 with
  | some (t :: rest, []) => forestValOf (t :: rest)
  | _ => none

/-- Parse a whole document: empty means null, a single line may be a flat
scalar, otherwise a block-style forest. -/
def parseDoc (ls : List Line) : Option YVal :=
  match ls with
  | [] => some .null
  | [(0, c)] =>
    match parseFlat c with
    | some v => some v
    | none => parseTop [(0, c)]
  | _ => parseTop ls

/-- Emit a document: block-style forest for nonempty containers, a single
flat line otherwise. -/
def emitDoc : YVal → List Line
  | .map (e :: es) => flattenF 0 (entriesForest (e :: es))
  | .list (x :: xs) => flattenF 0 (itemsForest (x :: xs))
  | v => [(0, flatOf v)]

def renderLine (l : Line) : List Char := List.replicate l.1 ' ' ++ l.2

def stripIndent (cs : List Char) : Line :=
  ((cs.takeWhile (fun c => c == ' ')).length, cs.dropWhile (fun c => c == ' '))

def joinNl : List (List Char) → List Char
  | [] => []
  | [l] => l
  | l :: l2 :: ls => l ++ '\n' :: joinNl (l2 :: ls)

def splitNl : List Char → List (List Char)
  | [] => [[]]
  | c :: rest =>
    match splitNl rest with
    | [] => [[]]
    | l :: ls => if c = '\n' then [] :: l :: ls else (c :: l) :: ls

/-- Render a `YVal` as YAML text (the ruamel dump of a JSON-compatible
tree, modelled from the spec's on-disk contract in §6). -/
def yamlDump (v : YVal) : String :=
  String.mk (joinNl ((emitDoc v).map renderLine) ++ ['\n'])

/-- Parse YAML text to a `YVal` (the ruamel `load`, modelled from the
spec); a fully empty document parses to null. -/
def yamlLoad (s : String) : Except String YVal :=
  match parseDoc ((if (splitNl s.toList).getLast? = some [] then
      (splitNl s.toList).dropLast else splitNl s.toList).map stripIndent) with
  | some v => .ok v
  | none => .error "Invalid YAML syntax"

/-! ## Errors

The application exception hierarchy of `app/core/exceptions.py`, as raised
by the handlers.  Each `AppError` constructor corresponds to one raise site
and carries that site's structured `details`; `pyClass` is the Python
exception class raised there.  `YAMLParseError` is imported by
`yaml_handler.py` and pinned by its tests to a single class with
`error_type = "YAML_PARSE_ERROR"`, but its definition is absent from this
snapshot's `exceptions.py`; it is modelled from the spec's serialization
error taxonomy and those tests as one class used for all three YAML
failure modes, matching its three raise sites in `yaml_handler.py`.
-/

inductive PyExnClass : Type where
  | yamlParseError
  | appFileNotFoundError
  | fileAccessError
  | fileOperationError
  | fileLockError
  | directoryNotFoundError
  | directoryNotEmptyError
  | valueError
deriving DecidableEq

/-- One entry of pydantic's `e.errors()`: location and message. -/
structure FieldError where
  loc : String
  msg : String
deriving DecidableEq

/-- A filesystem path, as directory components plus a final name. -/
structure FPath where
  parent : List String
  name : String
deriving DecidableEq

inductive AppError : Type where
  | yamlMalformedErr (err : String) (modelClass : String)
  | yamlSchemaErr (modelClass : String) (validationErrors : List FieldError)
  | yamlSerializeErr (modelType : String) (err : String)
  | fileNotFoundErr (path : FPath)
  | accessDeniedErr (path : FPath) (err : String)
  | decodeErr (path : FPath) (err : String) (encoding : String)
  | ioFaultErr (path : FPath) (err : String)
  | lockTimeoutErr (path : FPath) (timeout : ℚ) (lockFile : FPath) (lockFileExists : Bool)
  | dirNotFoundErr (path : List String) (msg : String)
  | invalidPatternErr (msg : String)
deriving DecidableEq

/-- The Python exception class raised for each error (its "kind"). -/
def AppError.pyClass : AppError → PyExnClass
  | .yamlMalformedErr .. => .yamlParseError
  | .yamlSchemaErr .. => .yamlParseError
  | .yamlSerializeErr .. => .yamlParseError
  | .fileNotFoundErr .. => .appFileNotFoundError
  | .accessDeniedErr .. => .fileAccessError
  | .decodeErr .. => .fileOperationError
  | .ioFaultErr .. => .fileOperationError
  | .lockTimeoutErr .. => .fileLockError
  | .dirNotFoundErr .. => .directoryNotFoundError
  | .invalidPatternErr .. => .valueError

/-- The exception class of a result, `none` on success. -/
def errClass {α : Type} : Except AppError α → Option PyExnClass
  | .error e => some e.pyClass
  | .ok _ => none

/-! ## YAMLHandler (`app/data/yaml_handler.py`)

`Schema R` models a pydantic model class: `dump` is
`model_dump(mode="json")` (failing like `PydanticSerializationError` on
non-serializable data) and `validate` is `model_validate` (failing with
the full list of field violations, pydantic's `e.errors()`).
-/

structure Schema (R : Type) where
  modelName : String
  dump : R → Except String YVal
  validate : YVal → Except (List FieldError) R

/-- `YAMLHandler.serialize`: `model_dump(mode="json")` then a ruamel dump;
a `PydanticSerializationError` maps to the YAML parse error class. -/
def serialize {R : Type} (s : Schema R) (r : R) : Except AppError String :=
  match s.dump r with
  | .ok data => .ok (yamlDump data)
  | .error e => .error (.yamlSerializeErr s.modelName e)

/-- The `if data is None: data = {}` branch of `YAMLHandler.deserialize`. -/
def noneToEmptyMap : YVal → YVal
  | .null => .map []
  | v => v

/-- `YAMLHandler.deserialize`: ruamel load (YAMLError maps to the parse
error), the None-to-empty-dict branch, then `model_validate`
(ValidationError maps to the same exception class, carrying
`validation_errors = e.errors()`). -/
def deserialize {R : Type} (s : Schema R) (yamlStr : String) : Except AppError R :=
  match yamlLoad yamlStr with
  | .error e => .error (.yamlMalformedErr e s.modelName)
  | .ok data =>
    match s.validate (noneToEmptyMap data) with
    | .ok r => .ok r
    | .error errs => .error (.yamlSchemaErr s.modelName errs)

/-! ## FileHandler state model (`app/data/file_handler.py`)

The filesystem is a finite map from paths to contents plus a set of
directories.  Operations whose outcome depends on OS conditions outside
the model (permissions, disk faults, encodings) take the OS outcome as an
explicit argument and model only the error translation, exactly as the
`try/except` chains in the source do.
-/

structure FS where
  entries : List (FPath × String)
  dirs : List (List String)
deriving DecidableEq

def FPath.comps (p : FPath) : List String := p.parent ++ [p.name]

/-- `FileLock.lock_file`: `<parent>/.<name>.lock`. -/
def FPath.lockMarker (p : FPath) : FPath := ⟨p.parent, "." ++ p.name ++ ".lock"⟩

/-- All prefixes of a directory path, as created by `mkdir(parents=True)`. -/
def ancestors : List String → List (List String)
  | [] => [[]]
  | d :: ds => [] :: (ancestors ds).map (fun a => d :: a)

def FS.mkdirParents (fs : FS) (d : List String) : FS :=
  { fs with dirs := ancestors d ++ fs.dirs }

def FS.filePaths (fs : FS) : List FPath := fs.entries.map Prod.fst

def removeEntry (entries : List (FPath × String)) (p : FPath) : List (FPath × String) :=
  entries.filter (fun e => decide (e.1 ≠ p))

/-- `FileHandler.write_file`: create parent directories, then write with
full overwrite semantics. -/
def writeFile (fs : FS) (path : FPath) (content : String) : FS :=
  let fs1 := fs.mkdirParents path.parent
  { fs1 with entries := (path, content) :: removeEntry fs1.entries path }

/-- `YAMLHandler.save`: serialize, then delegate to
`FileHandler.write_file`. -/
def save {R : Type} (s : Schema R) (r : R) (path : FPath) (fs : FS) :
    Except AppError FS :=
  match serialize s r with
  | .error e => .error e
  | .ok y => .ok (writeFile fs path y)

/-- The OS-level outcome of opening a file for reading (UTF-8 text). -/
inductive ReadOutcome : Type where
  | success (content : String)
  | fileNotFound
  | permissionError (err : String)
  | unicodeDecodeError (err : String)
  | osError (err : String)
deriving DecidableEq

/-- `FileHandler.read_file`: the try/except chain mapping each OS failure
onto an application exception.  A `UnicodeDecodeError` raises
`FileOperationError` (message "... file is not valid UTF-8 encoded",
details including the encoding); other `OSError`s raise
`FileOperationError` as well. -/
def readFile (path : FPath) (o : ReadOutcome) : Except AppError String :=
  match o with
  | .success content => .ok content
  | .fileNotFound => .error (.fileNotFoundErr path)
  | .permissionError e => .error (.accessDeniedErr path e)
  | .unicodeDecodeError e => .error (.decodeErr path e "utf-8")
  | .osError e => .error (.ioFaultErr path e)

/-! ## Pattern guard and directory listing -/

def beginsWith : List Char → List Char → Bool
  | [], _ => true
  | _ :: _, [] => false
  | a :: as, b :: bs => decide (a = b) && beginsWith as bs

/-- Substring containment, Python's `".." in pattern`. -/
def containsSeq (needle : List Char) : List Char → Bool
  | [] => beginsWith needle []
  | c :: rest => beginsWith needle (c :: rest) || containsSeq needle rest

/-- `FileHandler._validate_glob_pattern`.  (`pattern[0].isalpha()` is
Unicode-alphabetic in Python; `Char.isAlpha` restricts the model to the
ASCII letters, which covers the drive-letter prefixes the guard exists
for.) -/
def validateGlobPattern (pattern : String) : Except AppError Unit :=
  if pattern = "" then .ok ()
  else if containsSeq "..".toList pattern.toList then
    .error (.invalidPatternErr "Glob pattern cannot contain '..' for security reasons")
  else if beginsWith "/".toList pattern.toList then
    .error (.invalidPatternErr "Glob pattern cannot be an absolute path for security reasons")
  else
    match pattern.toList with
    | c0 :: c1 :: _ =>
      if c1 = ':' ∧ c0.isAlpha then
        .error (.invalidPatternErr "Glob pattern cannot contain drive letters for security reasons")
      else .ok ()
    | _ => .ok ()

/-- fnmatch-style segment matching with `*` and `?` wildcards, as used by
`Path.glob` for one path component. -/
def matchSeg (p s : List Char) : Bool :=
  match p, s with
  | [], [] => true
  | [], _ :: _ => false
  | c :: ps, s =>
    if c = '*' then
      matchSeg ps s ||
        (match s with
          | [] => false
          | _ :: s2 => matchSeg (c :: ps) s2)
    else
      match s with
      | [] => false
      | d :: s2 => (decide (c = '?') || decide (c = d)) && matchSeg ps s2
termination_by (p.length, s.length)

def splitSlash : List Char → List (List Char)
  | [] => [[]]
  | c :: rest =>
    match splitSlash rest with
    | [] => [[]]
    | l :: ls => if c = '/' then [] :: l :: ls else (c :: l) :: ls

/-- The paths yielded by `Path.glob`'s recursive-wildcard selector
(`**`) starting at directory `cur`: `cur` itself and every path reached
from it by descending through directories only, so each step and the
endpoint `cur ++ rel` must be a directory. -/
def dirChain (dirs : List (List String)) : List String → List String → Bool
  | cur, [] => decide (cur ∈ dirs)
  | cur, r :: rs => decide ((cur ++ [r]) ∈ dirs) && dirChain dirs (cur ++ [r]) rs

/-- `Path.glob`'s selector chain over the `/`-separated pattern segments:
`cur` is the directory reached so far and `rel` the remaining components of
the candidate path.  A non-final segment matches one component that must be
a directory (the next selector scans it); the final segment matches one
component, file or directory; a segment that is exactly `**` matches zero
or more directory components, so as final segment it yields directories
only — including the starting directory `cur` itself with nothing
consumed. -/
def globSel (dirs : List (List String)) :
    List (List Char) → List String → List String → Bool
  | [], _, _ => false
  | [sg], cur, rel =>
    if sg = "**".toList then dirChain dirs cur rel
    else
      match rel with
      | [r] => matchSeg sg r.toList
      | _ => false
  | sg :: sg2 :: sgs, cur, rel =>
    if sg = "**".toList then
      globSel dirs (sg2 :: sgs) cur rel ||
        (match rel with
          | [] => false
          | r :: rs =>
            decide ((cur ++ [r]) ∈ dirs) &&
              globSel dirs (sg :: sg2 :: sgs) (cur ++ [r]) rs)
    else
      match rel with
      | [] => false
      | r :: rs =>
        matchSeg sg r.toList && decide ((cur ++ [r]) ∈ dirs) &&
          globSel dirs (sg2 :: sgs) (cur ++ [r]) rs
termination_by segs _ rel => (rel.length, segs.length)

/-- `path.glob(pattern)` membership for a candidate `q`: `q` extends the
base `path` and the selector chain consumes the remaining components
(`q = path` itself only via a recursive `**` consuming nothing). -/
def globMatch (dirs : List (List String)) (path : List String)
    (pattern : String) (q : List String) : Bool :=
  decide (q.take path.length = path) &&
    globSel dirs (splitSlash pattern.toList) path (q.drop path.length)

def FS.allPaths (fs : FS) : List (List String) :=
  fs.entries.map (fun e => e.1.comps) ++ fs.dirs

/-- `list(path.glob(pattern))` inside `_list_directory_sync`'s `try`:
`pathlib` raises `ValueError` when `**` appears inside a pattern component
without being the whole component, and that `ValueError` is caught by
neither the `except PermissionError` nor the `except OSError` clause, so
it propagates to the caller. -/
def pathGlob (fs : FS) (path : List String) (pattern : String) :
    Except AppError (List (List String)) :=
  if (splitSlash pattern.toList).any
      (fun sg => containsSeq "**".toList sg && decide (sg ≠ "**".toList)) then
    .error (.invalidPatternErr "Invalid pattern: '**' can only be an entire path component")
  else
    .ok (fs.allPaths.filter (globMatch fs.dirs path pattern))

/-- `FileHandler._list_directory_sync`: existence check, directory check,
then `path.glob(pattern)`. -/
def listDirectorySync (fs : FS) (path : List String) (pattern : String) :
    Except AppError (List (List String)) :=
  if path ∉ fs.allPaths then
    .error (.dirNotFoundErr path "Directory not found")
  else if path ∉ fs.dirs then
    .error (.dirNotFoundErr path "Path is not a directory")
  else
    pathGlob fs path pattern

/-- `FileHandler.list_directory`: validates the pattern first, then lists. -/
def listDirectory (fs : FS) (path : List String) (pattern : String) :
    Except AppError (List (List String)) :=
  match validateGlobPattern pattern with
  | .error e => .error e
  | .ok () => listDirectorySync fs path pattern

/-! ## Lock manager (`FileHandler.acquire_lock` / `release_lock`)

Time is modelled by the sequence of monotonic-clock differences
`elapsed i` observed after the i-th failed attempt, and the wall clock
`wall i` used for `acquired_at`; the scheduler guarantees only
`0 ≤ elapsed i`. -/

structure FileLock where
  path : FPath
  acquiredAt : ℚ
deriving DecidableEq

def FileLock.lockFile (l : FileLock) : FPath := l.path.lockMarker

abbrev Registry := List (FPath × FileLock)

def removeKey (reg : Registry) (p : FPath) : Registry :=
  reg.filter (fun e => decide (e.1 ≠ p))

inductive OpenExclResult : Type where
  | created (fs : FS)
  | alreadyExists
  | noParentDir
deriving DecidableEq

/-- `os.open(lock_file, O_CREAT | O_EXCL | O_WRONLY)`: fails with
`FileExistsError` when the marker exists, `FileNotFoundError` (an
`OSError`) when the parent directory is missing, else creates the
zero-length marker atomically. -/
def openExclCreate (fs : FS) (p : FPath) : OpenExclResult :=
  if p.parent ∉ fs.dirs then .noParentDir
  else if p ∈ fs.filePaths then .alreadyExists
  else .created { fs with entries := (p, "") :: fs.entries }

/-- `FileHandler._try_acquire_lock_sync`: create the marker's parent
directories, then try the exclusive create; `FileExistsError` means the
lock is held (returns false), other `OSError`s raise immediately. -/
def tryAcquireLockSync (fs : FS) (path : FPath) : Except AppError (Bool × FS) :=
  let lf := path.lockMarker
  let fs1 := fs.mkdirParents lf.parent
  match openExclCreate fs1 lf with
  | .created fs2 => .ok (true, fs2)
  | .alreadyExists => .ok (false, fs1)
  | .noParentDir => .error (.ioFaultErr path "No such file or directory")

inductive AcquireResult : Type where
  | ok (lock : FileLock) (fs : FS) (reg : Registry) (attempts : Nat)
  | err (e : AppError) (fs : FS) (attempts : Nat)
  | fuelOut
deriving DecidableEq

/-- The retry loop of `FileHandler.acquire_lock`: try, and on failure
either raise `FileLockError` once `elapsed >= timeout` (details echo the
path, the timeout, the lock file and whether it currently exists) or
sleep 10ms and retry. -/
def acquireLockLoop (fs : FS) (reg : Registry) (path : FPath) (timeout : ℚ)
    (elapsed : Nat → ℚ) (wall : Nat → ℚ) (i : Nat) : Nat → AcquireResult
  | 0 => .fuelOut
  | fuel + 1 =>
    match tryAcquireLockSync fs path with
    | .error e => .err e fs (i + 1)
    | .ok (true, fs1) =>
      let lock : FileLock := ⟨path, wall i⟩
      .ok lock fs1 ((path, lock) :: removeKey reg path) (i + 1)
    | .ok (false, fs1) =>
      if timeout ≤ elapsed i then
        .err (.lockTimeoutErr path timeout path.lockMarker
          (decide (path.lockMarker ∈ fs1.filePaths))) fs1 (i + 1)
      else acquireLockLoop fs1 reg path timeout elapsed wall (i + 1) fuel

/-- `FileHandler.acquire_lock`. -/
def acquireLock (fs : FS) (reg : Registry) (path : FPath) (timeout : ℚ)
    (elapsed : Nat → ℚ) (wall : Nat → ℚ) (fuel : Nat) : AcquireResult :=
  acquireLockLoop fs reg path timeout elapsed wall 0 fuel

/-- `FileHandler._release_lock_sync`: delete the marker if it exists; an
`OSError` from the unlink (`unlinkOk = false`) is logged, never raised. -/
def releaseLockSync (fs : FS) (lock : FileLock) (unlinkOk : Bool) : FS :=
  if lock.lockFile ∈ fs.filePaths then
    if unlinkOk then { fs with entries := removeEntry fs.entries lock.lockFile }
    else fs
  else fs

/-- `FileHandler.release_lock`: release the marker, then always clear the
path from the active-lock registry.  Total — no failure is ever raised to
the caller. -/
def releaseLock (fs : FS) (reg : Registry) (lock : FileLock) (unlinkOk : Bool) :
    FS × Registry :=
  (releaseLockSync fs lock unlinkOk, removeKey reg lock.path)

/-! ## Concrete schemas

Pydantic model classes of `app/models/`, in miniature, for concrete
instantiation: a participant-like record (required `name` and `age`,
`role` defaulting), a settings record whose fields all have defaults, and
a model containing a non-serializable (function-valued) field.  Their
`validate` collects all field violations, as pydantic's `model_validate`
does. -/

def lookupKey : List (String × YVal) → String → Option YVal
  | [], _ => none
  | (k, v) :: rest, key => if k = key then some v else lookupKey rest key

/-- Applicative combination collecting the errors of both sides, like
pydantic accumulating every field violation. -/
def vmap2 {α β γ : Type} (f : α → β → γ) :
    Except (List FieldError) α → Except (List FieldError) β →
    Except (List FieldError) γ
  | .ok a, .ok b => .ok (f a b)
  | .error e1, .error e2 => .error (e1 ++ e2)
  | .error e1, .ok _ => .error e1
  | .ok _, .error e2 => .error e2

structure Participant where
  name : String
  role : String
  age : Int
deriving DecidableEq

def participantSchema : Schema Participant where
  modelName := "Participant"
  dump := fun r =>
    .ok (.map [("name", .str r.name), ("role", .str r.role), ("age", .int r.age)])
  validate := fun v =>
    match v with
    | .map es =>
      vmap2 (fun n (ra : String × Int) => ⟨n, ra.1, ra.2⟩)
        (match lookupKey es "name" with
          | some (.str s) => .ok s
          | some _ => .error [⟨"name", "Input should be a valid string"⟩]
          | none => .error [⟨"name", "Field required"⟩])
        (vmap2 Prod.mk
          (match lookupKey es "role" with
            | some (.str s) => .ok s
            | some _ => .error [⟨"role", "Input should be a valid string"⟩]
            | none => .ok "member")
          (match lookupKey es "age" with
            | some (.int n) => .ok n
            | some _ => .error [⟨"age", "Input should be a valid integer"⟩]
            | none => .error [⟨"age", "Field required"⟩]))
    | _ => .error [⟨"", "Input should be a valid dictionary"⟩]

structure UserSettings where
  theme : String
  autosave : Bool
deriving DecidableEq

def userSettingsSchema : Schema UserSettings where
  modelName := "UserSettings"
  dump := fun r =>
    .ok (.map [("theme", .str r.theme), ("autosave", .bool r.autosave)])
  validate := fun v =>
    match v with
    | .map es =>
      vmap2 (fun t a => ⟨t, a⟩)
        (match lookupKey es "theme" with
          | some (.str s) => .ok s
          | some _ => .error [⟨"theme", "Input should be a valid string"⟩]
          | none => .ok "light")
        (match lookupKey es "autosave" with
          | some (.bool b) => .ok b
          | some _ => .error [⟨"autosave", "Input should be a valid boolean"⟩]
          | none => .ok true)
    | _ => .error [⟨"", "Input should be a valid dictionary"⟩]

/-- A model whose `model_dump(mode="json")` raises
`PydanticSerializationError` (a function-valued field). -/
def callbackFieldSchema : Schema Unit where
  modelName := "ModelWithNonSerializableField"
  dump := fun _ => .error "Unable to serialize unknown type: function"
  validate := fun _ => .error [⟨"callback", "Input should be serializable"⟩]

def c1record : Participant :=
  ⟨"田中太郎\nsalary: $150K |>&%#\"yes/no~", "admin", -42⟩

def c1tree : YVal :=
  .map [("name", .str "田中太郎\nsalary: $150K |>&%#\"yes/no~"),
    ("role", .str "admin"), ("age", .int (-42))]

def c4fs : FS := ⟨[(⟨["data"], ".f.yaml.lock"⟩, "")], [["data"]]⟩

def c4path : FPath := ⟨["data"], "f.yaml"⟩

def c7fs : FS :=
  { entries := [(⟨["dir"], "a.txt"⟩, ""), (⟨["dir", "sub"], "b.txt"⟩, "")],
    dirs := [[], ["dir"], ["dir", "sub"]] }

/-! ## Theorems -/

theorem unescape_cons_of_ne (c : Char) (rest : List Char) (h : ¬ c = '\\') :
    unescape (c :: rest) = (unescape rest).map (fun l => c :: l) := by
  rw [unescape.eq_def]
  dsimp only
  rw [if_neg h]

theorem unescape_escape (cs : List Char) : unescape (escape cs) = some cs := by
  induction cs with
  | nil => rfl
  | cons c rest ih =>
    show unescape (escChar c ++ escape rest) = some (c :: rest)
    unfold escChar
    by_cases h1 : c = '\\'
    · subst h1; simp [unescape, ih]
    · by_cases h2 : c = '"'
      · subst h2; simp [unescape, ih]
      · by_cases h3 : c = '\n'
        · subst h3; simp [unescape, ih]
        · simp only [if_neg h1, if_neg h2, if_neg h3, List.singleton_append]
          rw [unescape_cons_of_ne c _ h1]
          simp [ih]

theorem newline_not_mem_escape (cs : List Char) : '\n' ∉ escape cs := by
  induction cs with
  | nil => simp [escape]
  | cons c rest ih =>
    show '\n' ∉ escChar c ++ escape rest
    simp only [List.mem_append]
    push_neg
    refine ⟨?_, ih⟩
    unfold escChar
    by_cases h1 : c = '\\'
    · simp [h1]
    · by_cases h2 : c = '"'
      · simp [h1, h2]
      · by_cases h3 : c = '\n'
        · simp [h1, h2, h3]
        · simp [h1, h2, h3]
          exact fun h => h3 h.symm

theorem digitVal_digitChar (d : Nat) (h : d < 10) : digitVal (digitChar d) = some d := by
  interval_cases d <;> decide

theorem parseDigitsAux_append (acc : Nat) (cs ds : List Char) :
    (∀ c ∈ cs, (digitVal c).isSome) →
    parseDigitsAux acc (cs ++ ds) =
      parseDigitsAux (acc * 10 ^ cs.length + Nat.ofDigits 10 ((cs.map fun c => (digitVal c).getD 0).reverse)) ds := by
  induction cs generalizing acc with
  | nil => simp [Nat.ofDigits]
  | cons c rest ih =>
    intro hall
    have hc : (digitVal c).isSome := hall c (List.mem_cons_self c rest)
    obtain ⟨d, hd⟩ := Option.isSome_iff_exists.mp hc
    show parseDigitsAux acc (c :: (rest ++ ds)) = _
    rw [parseDigitsAux, hd]
    show parseDigitsAux (acc * 10 + d) (rest ++ ds) = _
    rw [ih (acc * 10 + d) (fun x hx => hall x (List.mem_cons_of_mem c hx))]
    congr 1
    simp only [List.map_cons, List.reverse_cons, List.length_cons, hd, Option.getD_some]
    rw [Nat.ofDigits_append]
    simp [Nat.ofDigits_singleton]
    ring

theorem parseNat_renderNat (n : Nat) (hn : 0 < n) : parseNatChars (renderNat n) = some n := by
  unfold parseNatChars renderNat
  have hne : Nat.digits 10 n ≠ [] := Nat.digits_ne_nil_iff_ne_zero.mpr (by omega)
  rw [if_neg]
  · have hdig : ∀ c ∈ ((Nat.digits 10 n).map digitChar).reverse, (digitVal c).isSome := by
      intro c hc
      rw [List.mem_reverse, List.mem_map] at hc
      obtain ⟨d, hd, rfl⟩ := hc
      have : d < 10 := Nat.digits_lt_base (by norm_num) hd
      rw [digitVal_digitChar d this]
      rfl
    have := parseDigitsAux_append 0 (((Nat.digits 10 n).map digitChar).reverse) [] hdig
    rw [List.append_nil] at this
    rw [this]
    simp only [parseDigitsAux, Nat.zero_mul, Nat.zero_add]
    congr 1
    have hmap : ((((Nat.digits 10 n).map digitChar).reverse).map fun c => (digitVal c).getD 0).reverse
        = Nat.digits 10 n := by
      rw [← List.map_reverse, List.reverse_reverse, List.map_map]
      have : ∀ d ∈ Nat.digits 10 n, ((fun c => (digitVal c).getD 0) ∘ digitChar) d = d := by
        intro d hd
        have : d < 10 := Nat.digits_lt_base (by norm_num) hd
        simp [Function.comp, digitVal_digitChar d this]
      calc (Nat.digits 10 n).map ((fun c => (digitVal c).getD 0) ∘ digitChar)
          = (Nat.digits 10 n).map id := List.map_congr_left this
        _ = Nat.digits 10 n := List.map_id _
    rw [hmap, Nat.ofDigits_digits]
  · simp only [ne_eq, List.reverse_eq_nil_iff, List.map_eq_nil_iff]
    exact hne

theorem strMk_toList (s : String) : String.mk s.toList = s := rfl

theorem renderNat_chars (n : Nat) :
    ∀ c ∈ renderNat n, 48 ≤ c.toNat ∧ c.toNat ≤ 57 := by
  intro c hc
  unfold renderNat at hc
  rw [List.mem_reverse, List.mem_map] at hc
  obtain ⟨d, hd, rfl⟩ := hc
  have hlt : d < 10 := Nat.digits_lt_base (by norm_num) hd
  interval_cases d <;> decide

theorem renderInt_chars (i : Int) :
    ∀ c ∈ renderInt i, c = '-' ∨ (48 ≤ c.toNat ∧ c.toNat ≤ 57) := by
  intro c hc
  unfold renderInt at hc
  by_cases h1 : i < 0
  · rw [if_pos h1] at hc
    rcases List.mem_cons.mp hc with h | h
    · exact Or.inl h
    · exact Or.inr (renderNat_chars _ c h)
  · rw [if_neg h1] at hc
    by_cases h2 : i = 0
    · rw [if_pos h2] at hc
      simp at hc
      subst hc
      right; decide
    · rw [if_neg h2] at hc
      exact Or.inr (renderNat_chars _ c hc)

theorem renderInt_ne_word (i : Int) (w : List Char) (c0 : Char) (hw : w.head? = some c0)
    (hc0 : ¬ (c0 = '-' ∨ (48 ≤ c0.toNat ∧ c0.toNat ≤ 57))) : renderInt i ≠ w := by
  intro h
  have hmem : c0 ∈ renderInt i := by
    rw [h]
    cases w with
    | nil => simp at hw
    | cons a t =>
      simp at hw
      subst hw
      exact List.mem_cons_self _ _
  exact hc0 (renderInt_chars i c0 hmem)

theorem renderNat_ne_nil (n : Nat) (hn : 0 < n) : renderNat n ≠ [] := by
  unfold renderNat
  simp only [ne_eq, List.reverse_eq_nil_iff, List.map_eq_nil_iff]
  exact Nat.digits_ne_nil_iff_ne_zero.mpr (by omega)

theorem parseFlat_renderInt (i : Int) : parseFlat (renderInt i) = some (.int i) := by
  have hn : renderInt i ≠ "null".toList :=
    renderInt_ne_word i _ 'n' rfl (by decide)
  have ht : renderInt i ≠ "true".toList :=
    renderInt_ne_word i _ 't' rfl (by decide)
  have hf : renderInt i ≠ "false".toList :=
    renderInt_ne_word i _ 'f' rfl (by decide)
  have hl : renderInt i ≠ "[]".toList :=
    renderInt_ne_word i _ '[' rfl (by decide)
  have hm : renderInt i ≠ "{}".toList :=
    renderInt_ne_word i _ '{' rfl (by decide)
  unfold parseFlat
  rw [if_neg hn, if_neg ht, if_neg hf, if_neg hl, if_neg hm]
  by_cases h1 : i < 0
  · have hrend : renderInt i = '-' :: renderNat i.natAbs := by unfold renderInt; rw [if_pos h1]
    rw [hrend]
    simp only [parseFlatCore]
    rw [if_pos trivial]
    rw [parseNat_renderNat i.natAbs (by omega)]
    show some (YVal.int (-Int.ofNat i.natAbs)) = some (YVal.int i)
    have hi : -Int.ofNat i.natAbs = i := by
      rw [Int.ofNat_eq_natCast]; omega
    rw [hi]
  · by_cases h2 : i = 0
    · subst h2
      have hrend : renderInt 0 = ['0'] := by unfold renderInt; norm_num
      rw [hrend]
      rfl
    · have hpos : 0 < i.toNat := by omega
      have hrend : renderInt i = renderNat i.toNat := by
        unfold renderInt; rw [if_neg h1, if_neg h2]
      obtain ⟨c, rest, hcons⟩ : ∃ c rest, renderNat i.toNat = c :: rest := by
        rcases hre : renderNat i.toNat with _ | ⟨c, rest⟩
        · exact absurd hre (renderNat_ne_nil _ hpos)
        · exact ⟨c, rest, rfl⟩
      rw [hrend, hcons]
      simp only [parseFlatCore]
      have hcdig : 48 ≤ c.toNat ∧ c.toNat ≤ 57 :=
        renderNat_chars _ c (hcons ▸ List.mem_cons_self c rest)
      have hq : ¬ c = '"' := by
        intro h; subst h; revert hcdig; decide
      have hd : ¬ c = '-' := by
        intro h; subst h; revert hcdig; decide
      rw [if_neg hq, if_neg hd, ← hcons, parseNat_renderNat i.toNat hpos]
      show some (YVal.int (Int.ofNat i.toNat)) = some (YVal.int i)
      have hi : Int.ofNat i.toNat = i := by
        rw [Int.ofNat_eq_natCast]; omega
      rw [hi]

theorem parseFlat_renderStr (s : String) : parseFlat (renderStr s) = some (.str s) := by
  have hne : ∀ (w : List Char) (c0 : Char), w.head? = some c0 → ¬ c0 = '"' → renderStr s ≠ w := by
    intro w c0 hw hc0 h
    unfold renderStr at h
    cases w with
    | nil => simp at hw
    | cons a t =>
      simp at hw
      rw [List.cons.injEq] at h
      exact hc0 (hw ▸ h.1.symm)
  unfold parseFlat
  rw [if_neg (hne "null".toList 'n' rfl (by decide)),
    if_neg (hne "true".toList 't' rfl (by decide)),
    if_neg (hne "false".toList 'f' rfl (by decide)),
    if_neg (hne "[]".toList '[' rfl (by decide)),
    if_neg (hne "{}".toList '{' rfl (by decide))]
  unfold renderStr
  simp only [parseFlatCore]
  rw [if_pos trivial, List.getLast?_concat]
  simp [List.dropLast_concat, unescape_escape, strMk_toList]

theorem parseFlat_renderFlat (v : YVal) (cs : List Char) (h : renderFlat v = some cs) :
    parseFlat cs = some v := by
  cases v with
  | null =>
    simp only [renderFlat, Option.some.injEq] at h
    subst h; rfl
  | bool b =>
    cases b <;> simp only [renderFlat, Option.some.injEq] at h <;> (subst h; rfl)
  | int i =>
    simp only [renderFlat, Option.some.injEq] at h
    subst h; exact parseFlat_renderInt i
  | str s =>
    simp only [renderFlat, Option.some.injEq] at h
    subst h; exact parseFlat_renderStr s
  | list vs =>
    cases vs with
    | nil =>
      simp only [renderFlat, Option.some.injEq] at h
      subst h; rfl
    | cons a t => simp [renderFlat] at h
  | map es =>
    cases es with
    | nil =>
      simp only [renderFlat, Option.some.injEq] at h
      subst h; rfl
    | cons a t => simp [renderFlat] at h

theorem stopsAt_mono {ls : List Line} {ind ind' : Nat} (h : stopsAt ls ind)
    (hle : ind ≤ ind') : stopsAt ls ind' := by
  cases ls with
  | nil => trivial
  | cons l rest =>
    obtain ⟨i, c⟩ := l
    exact lt_of_lt_of_le h hle

theorem flattenF_cons (ind : Nat) (c : List Char) (ch ts : List LTree) :
    flattenF ind (.node c ch :: ts) =
      (ind, c) :: (flattenF (ind + 2) ch ++ flattenF ind ts) := by
  rw [flattenF, flattenT]
  rfl

theorem stopsAt_flattenF_append (ind : Nat) (ts : List LTree) (rest : List Line)
    (h : stopsAt rest ind) : stopsAt (flattenF ind ts ++ rest) (ind + 2) := by
  cases ts with
  | nil =>
    rw [flattenF, List.nil_append]
    exact stopsAt_mono h (by omega)
  | cons t ts' =>
    obtain ⟨c, ch⟩ := t
    rw [flattenF_cons, List.cons_append]
    show ind < ind + 2
    omega

theorem unflatten_nil_forest (ind : Nat) (rest : List Line) (h : stopsAt rest ind) :
    unflatten rest ind = some ([], rest) := by
  unfold unflatten
  cases rest with
  | nil =>
    rw [unflattenF.eq_def]
    rfl
  | cons l rest' =>
    obtain ⟨i, c⟩ := l
    have h' : i < ind := h
    rw [unflattenF.eq_def]
    dsimp only
    rw [if_pos h']
    rfl

theorem unflatten_flattenF (n : Nat) : ∀ ts ind rest, (flattenF ind ts).length ≤ n →
    stopsAt rest ind →
    unflatten (flattenF ind ts ++ rest) ind = some (ts, rest) := by
  induction n with
  | zero =>
    intro ts ind rest hlen hstop
    cases ts with
    | nil =>
      rw [flattenF, List.nil_append]
      exact unflatten_nil_forest ind rest hstop
    | cons t ts' =>
      obtain ⟨c, ch⟩ := t
      rw [flattenF_cons] at hlen
      simp at hlen
  | succ n ih =>
    intro ts ind rest hlen hstop
    cases ts with
    | nil =>
      rw [flattenF, List.nil_append]
      exact unflatten_nil_forest ind rest hstop
    | cons t ts' =>
      obtain ⟨c, ch⟩ := t
      rw [flattenF_cons] at hlen ⊢
      rw [List.length_cons, List.length_append] at hlen
      rw [List.cons_append, List.append_assoc]
      have hch : unflatten (flattenF (ind + 2) ch ++ (flattenF ind ts' ++ rest)) (ind + 2)
          = some (ch, flattenF ind ts' ++ rest) :=
        ih ch (ind + 2) (flattenF ind ts' ++ rest) (by omega)
          (stopsAt_flattenF_append ind ts' rest hstop)
      have hts : unflatten (flattenF ind ts' ++ rest) ind = some (ts', rest) :=
        ih ts' ind rest (by omega) hstop
      unfold unflatten at hch hts ⊢
      obtain ⟨p, hp, hpv⟩ := Option.map_eq_some'.mp hch
      obtain ⟨q, hq, hqv⟩ := Option.map_eq_some'.mp hts
      obtain ⟨p1, pv, hv⟩ := p
      obtain ⟨q1, qv, hw⟩ := q
      simp only [Prod.mk.injEq] at hpv hqv
      obtain ⟨hp1, hp2⟩ := hpv
      obtain ⟨hq1, hq2⟩ := hqv
      subst hp1 hp2 hq1 hq2
      rw [unflattenF.eq_def]
      dsimp only
      rw [if_neg (lt_irrefl ind), if_pos rfl]
      rw [hp]
      dsimp only
      rw [hq]
      rfl

theorem takeWhile_key (p : Char → Bool) (xs zs : List Char) (y : Char)
    (hx : ∀ x ∈ xs, p x = true) (hy : p y = false) :
    (xs ++ y :: zs).takeWhile p = xs := by
  induction xs with
  | nil => simp [List.takeWhile_cons, hy]
  | cons a as ih =>
    have ha : p a = true := hx a (List.mem_cons_self a as)
    rw [List.cons_append, List.takeWhile_cons, ha]
    simp only [if_true]
    rw [ih (fun x hx2 => hx x (List.mem_cons_of_mem a hx2))]

theorem validKey_props (k : String) (h : validKey k = true) :
    k.toList ≠ [] ∧ ∀ c ∈ k.toList, validKeyChar c = true := by
  unfold validKey at h
  rw [Bool.and_eq_true] at h
  constructor
  · intro hnil
    rw [hnil] at h
    simp at h
  · intro c hc
    exact (List.all_eq_true.mp h.2) c hc

theorem validKey_isEmpty_false (k : String) (h : validKey k = true) :
    k.toList.isEmpty = false := by
  have := (validKey_props k h).1
  cases hc : k.toList with
  | nil => exact absurd hc this
  | cons a as => rfl

theorem parseFlat_flatOf (v : YVal) (h : (renderFlat v).isSome) :
    parseFlat (flatOf v) = some v := by
  obtain ⟨cs, hcs⟩ := Option.isSome_iff_exists.mp h
  unfold flatOf
  rw [hcs]
  exact parseFlat_renderFlat v cs hcs

theorem entryTree_flatEq (k : String) (v : YVal) (hv : (renderFlat v).isSome) :
    entryTree (k, v) = .node (k.toList ++ ':' :: ' ' :: flatOf v) [] := by
  cases v with
  | null => simp [entryTree]
  | bool b => simp [entryTree]
  | int i => simp [entryTree]
  | str s => simp [entryTree]
  | list vs =>
    cases vs with
    | nil => simp [entryTree]
    | cons x xs => simp [renderFlat] at hv
  | map es =>
    cases es with
    | nil => simp [entryTree]
    | cons e es' => simp [renderFlat] at hv

theorem itemTree_flatEq (v : YVal) (hv : (renderFlat v).isSome) :
    itemTree v = .node ('-' :: ' ' :: flatOf v) [] := by
  cases v with
  | null => simp [itemTree]
  | bool b => simp [itemTree]
  | int i => simp [itemTree]
  | str s => simp [itemTree]
  | list vs =>
    cases vs with
    | nil => simp [itemTree]
    | cons x xs => simp [renderFlat] at hv
  | map es =>
    cases es with
    | nil => simp [itemTree]
    | cons e es' => simp [renderFlat] at hv

theorem entriesForest_cons (e : String × YVal) (es : List (String × YVal)) :
    entriesForest (e :: es) = entryTree e :: entriesForest es := by
  simp [entriesForest]

theorem itemsForest_cons (v : YVal) (vs : List YVal) :
    itemsForest (v :: vs) = itemTree v :: itemsForest vs := by
  simp [itemsForest]

theorem itemTree_head (v : YVal) :
    ∃ cs ts, itemTree v = .node cs ts ∧ cs.head? = some '-' := by
  by_cases hv : (renderFlat v).isSome
  · exact ⟨'-' :: ' ' :: flatOf v, [], itemTree_flatEq v hv, rfl⟩
  · cases v with
    | null => simp [renderFlat] at hv
    | bool b => cases b <;> simp [renderFlat] at hv
    | int i => simp [renderFlat] at hv
    | str s => simp [renderFlat] at hv
    | list vs =>
      cases vs with
      | nil => simp [renderFlat] at hv
      | cons x xs => exact ⟨['-'], itemsForest (x :: xs), by simp [itemTree], rfl⟩
    | map es =>
      cases es with
      | nil => simp [renderFlat] at hv
      | cons e es' => exact ⟨['-'], entriesForest (e :: es'), by simp [itemTree], rfl⟩

theorem entryTree_head (k : String) (v : YVal) (hk : validKey k = true) :
    ∃ cs ts c0, entryTree (k, v) = .node cs ts ∧ cs.head? = some c0 ∧
      validKeyChar c0 = true := by
  obtain ⟨hne, hall⟩ := validKey_props k hk
  obtain ⟨c0, kr, hkl⟩ : ∃ c0 kr, k.toList = c0 :: kr := by
    cases hc : k.toList with
    | nil => exact absurd hc hne
    | cons a as => exact ⟨a, as, rfl⟩
  have hc0 : validKeyChar c0 = true := hall c0 (by rw [hkl]; exact List.mem_cons_self _ _)
  by_cases hv : (renderFlat v).isSome
  · refine ⟨k.toList ++ ':' :: ' ' :: flatOf v, [], c0, entryTree_flatEq k v hv, ?_, hc0⟩
    rw [hkl]
    rfl
  · cases v with
    | null => simp [renderFlat] at hv
    | bool b => cases b <;> simp [renderFlat] at hv
    | int i => simp [renderFlat] at hv
    | str s => simp [renderFlat] at hv
    | list vs =>
      cases vs with
      | nil => simp [renderFlat] at hv
      | cons x xs =>
        refine ⟨k.toList ++ [':'], itemsForest (x :: xs), c0, by simp [entryTree], ?_, hc0⟩
        rw [hkl]
        rfl
    | map es =>
      cases es with
      | nil => simp [renderFlat] at hv
      | cons e es' =>
        refine ⟨k.toList ++ [':'], entriesForest (e :: es'), c0, by simp [entryTree], ?_, hc0⟩
        rw [hkl]
        rfl

theorem validKeyChar_colon : validKeyChar ':' = false := by decide

theorem treeEntry_keyLine (k : String) (tail : List Char)
    (hk : validKey k = true) :
    (k.toList ++ ':' :: tail).takeWhile validKeyChar = k.toList ∧
    (k.toList ++ ':' :: tail).drop k.toList.length = ':' :: tail := by
  obtain ⟨-, hall⟩ := validKey_props k hk
  exact ⟨takeWhile_key validKeyChar k.toList tail ':' hall validKeyChar_colon,
    List.drop_left k.toList (':' :: tail)⟩

theorem treeEntry_flat (k : String) (v : YVal) (hk : validKey k = true)
    (hv : (renderFlat v).isSome) :
    treeEntry (.node (k.toList ++ ':' :: ' ' :: flatOf v) []) = some (k, v) := by
  obtain ⟨htw, hdr⟩ := treeEntry_keyLine k (' ' :: flatOf v) hk
  rw [treeEntry.eq_def]
  dsimp only
  rw [htw, hdr]
  show (if (k.toList).isEmpty = true then none
      else Option.map (fun v2 => (String.mk k.toList, v2)) (parseFlat (flatOf v)))
      = some (k, v)
  rw [if_neg (by rw [validKey_isEmpty_false k hk]; exact Bool.false_ne_true)]
  rw [parseFlat_flatOf v hv]
  simp [strMk_toList]

theorem treeEntry_nested (k : String) (t : LTree) (rest : List LTree) (v : YVal)
    (hk : validKey k = true) (hfv : forestValOf (t :: rest) = some v) :
    treeEntry (.node (k.toList ++ [':']) (t :: rest)) = some (k, v) := by
  obtain ⟨htw, hdr⟩ := treeEntry_keyLine k [] hk
  rw [treeEntry.eq_def]
  dsimp only
  rw [htw, hdr]
  show (if (k.toList).isEmpty = true then none
      else Option.map (fun v2 => (String.mk k.toList, v2)) (forestValOf (t :: rest)))
      = some (k, v)
  rw [if_neg (by rw [validKey_isEmpty_false k hk]; exact Bool.false_ne_true)]
  rw [hfv]
  simp [strMk_toList]

theorem treeItem_flat (v : YVal) (hv : (renderFlat v).isSome) :
    treeItem (.node ('-' :: ' ' :: flatOf v) []) = some v := by
  rw [treeItem.eq_def]
  dsimp only
  exact parseFlat_flatOf v hv

theorem treeItem_nested (t : LTree) (rest : List LTree) (v : YVal)
    (hfv : forestValOf (t :: rest) = some v) :
    treeItem (.node ['-'] (t :: rest)) = some v := by
  rw [treeItem.eq_def]
  dsimp only
  exact hfv

theorem yval_sizeOf_pos (v : YVal) : 0 < sizeOf v := by
  cases v <;> simp_arith

theorem list_sizeOf_pos {α : Type} [SizeOf α] (l : List α) : 0 < sizeOf l := by
  cases l <;> simp_arith

theorem convRound (n : Nat) :
    (∀ es, sizeOf es ≤ n → wfEntries es = true →
      treeEntries (entriesForest es) = some es)
  ∧ (∀ vs, sizeOf vs ≤ n → wfItems vs = true →
      treeItems (itemsForest vs) = some vs)
  ∧ (∀ e es, sizeOf (e :: es) ≤ n → wfEntries (e :: es) = true →
      forestValOf (entriesForest (e :: es)) = some (.map (e :: es)))
  ∧ (∀ v vs, sizeOf (v :: vs) ≤ n → wfItems (v :: vs) = true →
      forestValOf (itemsForest (v :: vs)) = some (.list (v :: vs)))
  ∧ (∀ k v, sizeOf v ≤ n → validKey k = true → wfVal v = true →
      treeEntry (entryTree (k, v)) = some (k, v))
  ∧ (∀ v, sizeOf v ≤ n → wfVal v = true →
      treeItem (itemTree v) = some v) := by
  induction n with
  | zero =>
    refine ⟨?_, ?_, ?_, ?_, ?_, ?_⟩
    · intro es hsz
      exact absurd hsz (by have := list_sizeOf_pos es; omega)
    · intro vs hsz
      exact absurd hsz (by have := list_sizeOf_pos vs; omega)
    · intro e es hsz
      exact absurd hsz (by have := list_sizeOf_pos (e :: es); omega)
    · intro v vs hsz
      exact absurd hsz (by have := list_sizeOf_pos (v :: vs); omega)
    · intro k v hsz
      exact absurd hsz (by have := yval_sizeOf_pos v; omega)
    · intro v hsz
      exact absurd hsz (by have := yval_sizeOf_pos v; omega)
  | succ n ih =>
    obtain ⟨ihE, ihI, ihFE, ihFI, ihEN, ihIT⟩ := ih
    have hE : ∀ es, sizeOf es ≤ n + 1 → wfEntries es = true →
        treeEntries (entriesForest es) = some es := by
      intro es hsz hwf
      cases es with
      | nil =>
        rw [show entriesForest [] = [] from by simp [entriesForest]]
        simp [treeEntries]
      | cons e es' =>
        obtain ⟨k, v⟩ := e
        simp only [wfEntries, Bool.and_eq_true] at hwf
        obtain ⟨⟨hk, hv⟩, hes'⟩ := hwf
        simp only [List.cons.sizeOf_spec, Prod.mk.sizeOf_spec] at hsz
        have h1 : treeEntry (entryTree (k, v)) = some (k, v) :=
          ihEN k v (by have := list_sizeOf_pos es'; omega) hk hv
        have h2 : treeEntries (entriesForest es') = some es' :=
          ihE es' (by have := yval_sizeOf_pos v; omega) hes'
        rw [entriesForest_cons, treeEntries.eq_def]
        dsimp only
        rw [h1, h2]
    have hI : ∀ vs, sizeOf vs ≤ n + 1 → wfItems vs = true →
        treeItems (itemsForest vs) = some vs := by
      intro vs hsz hwf
      cases vs with
      | nil =>
        rw [show itemsForest [] = [] from by simp [itemsForest]]
        simp [treeItems]
      | cons v vs' =>
        simp only [wfItems, Bool.and_eq_true] at hwf
        obtain ⟨hv, hvs'⟩ := hwf
        simp only [List.cons.sizeOf_spec] at hsz
        have h1 : treeItem (itemTree v) = some v :=
          ihIT v (by have := list_sizeOf_pos vs'; omega) hv
        have h2 : treeItems (itemsForest vs') = some vs' :=
          ihI vs' (by have := yval_sizeOf_pos v; omega) hvs'
        rw [itemsForest_cons, treeItems.eq_def]
        dsimp only
        rw [h1, h2]
    have hFE : ∀ e es, sizeOf (e :: es) ≤ n + 1 → wfEntries (e :: es) = true →
        forestValOf (entriesForest (e :: es)) = some (.map (e :: es)) := by
      intro e es hsz hwf
      obtain ⟨k, v⟩ := e
      have hk : validKey k = true := by
        simp only [wfEntries, Bool.and_eq_true] at hwf
        exact hwf.1.1
      obtain ⟨cs, ts, c0, het, hhd, hc0⟩ := entryTree_head k v hk
      have hnd : ¬ (cs.head? = some '-') := by
        intro hcontra
        rw [hhd] at hcontra
        have hcc : c0 = '-' := Option.some.inj hcontra
        rw [hcc] at hc0
        exact absurd hc0 (by decide)
      rw [entriesForest_cons, het, forestValOf.eq_def]
      dsimp only
      rw [if_neg hnd, ← het, ← entriesForest_cons, hE ((k, v) :: es) hsz hwf]
    have hFI : ∀ v vs, sizeOf (v :: vs) ≤ n + 1 → wfItems (v :: vs) = true →
        forestValOf (itemsForest (v :: vs)) = some (.list (v :: vs)) := by
      intro v vs hsz hwf
      obtain ⟨cs, ts, hit, hhd⟩ := itemTree_head v
      rw [itemsForest_cons, hit, forestValOf.eq_def]
      dsimp only
      rw [if_pos hhd, ← hit, ← itemsForest_cons, hI (v :: vs) hsz hwf]
    have hEN : ∀ k v, sizeOf v ≤ n + 1 → validKey k = true → wfVal v = true →
        treeEntry (entryTree (k, v)) = some (k, v) := by
      intro k v hsz hk hwf
      by_cases hflat : (renderFlat v).isSome
      · rw [entryTree_flatEq k v hflat]
        exact treeEntry_flat k v hk hflat
      · cases v with
        | null => simp [renderFlat] at hflat
        | bool b => cases b <;> simp [renderFlat] at hflat
        | int i => simp [renderFlat] at hflat
        | str s => simp [renderFlat] at hflat
        | list vs =>
          cases vs with
          | nil => simp [renderFlat] at hflat
          | cons x xs =>
            simp only [wfVal] at hwf
            simp only [YVal.list.sizeOf_spec] at hsz
            have hforest : forestValOf (itemsForest (x :: xs)) = some (.list (x :: xs)) :=
              ihFI x xs (by omega) hwf
            rw [show entryTree (k, .list (x :: xs))
                = .node (k.toList ++ [':']) (itemsForest (x :: xs)) from by simp [entryTree]]
            rw [itemsForest_cons] at hforest ⊢
            exact treeEntry_nested k _ _ _ hk hforest
        | map es =>
          cases es with
          | nil => simp [renderFlat] at hflat
          | cons e es' =>
            simp only [wfVal] at hwf
            simp only [YVal.map.sizeOf_spec] at hsz
            have hforest : forestValOf (entriesForest (e :: es')) = some (.map (e :: es')) :=
              ihFE e es' (by omega) hwf
            rw [show entryTree (k, .map (e :: es'))
                = .node (k.toList ++ [':']) (entriesForest (e :: es')) from by simp [entryTree]]
            rw [entriesForest_cons] at hforest ⊢
            exact treeEntry_nested k _ _ _ hk hforest
    have hIT : ∀ v, sizeOf v ≤ n + 1 → wfVal v = true →
        treeItem (itemTree v) = some v := by
      intro v hsz hwf
      by_cases hflat : (renderFlat v).isSome
      · rw [itemTree_flatEq v hflat]
        exact treeItem_flat v hflat
      · cases v with
        | null => simp [renderFlat] at hflat
        | bool b => cases b <;> simp [renderFlat] at hflat
        | int i => simp [renderFlat] at hflat
        | str s => simp [renderFlat] at hflat
        | list vs =>
          cases vs with
          | nil => simp [renderFlat] at hflat
          | cons x xs =>
            simp only [wfVal] at hwf
            simp only [YVal.list.sizeOf_spec] at hsz
            have hforest : forestValOf (itemsForest (x :: xs)) = some (.list (x :: xs)) :=
              ihFI x xs (by omega) hwf
            rw [show itemTree (.list (x :: xs))
                = .node ['-'] (itemsForest (x :: xs)) from by simp [itemTree]]
            rw [itemsForest_cons] at hforest ⊢
            exact treeItem_nested _ _ _ hforest
        | map es =>
          cases es with
          | nil => simp [renderFlat] at hflat
          | cons e es' =>
            simp only [wfVal] at hwf
            simp only [YVal.map.sizeOf_spec] at hsz
            have hforest : forestValOf (entriesForest (e :: es')) = some (.map (e :: es')) :=
              ihFE e es' (by omega) hwf
            rw [show itemTree (.map (e :: es'))
                = .node ['-'] (entriesForest (e :: es')) from by simp [itemTree]]
            rw [entriesForest_cons] at hforest ⊢
            exact treeItem_nested _ _ _ hforest
    exact ⟨hE, hI, hFE, hFI, hEN, hIT⟩

theorem treeEntries_entriesForest (es : List (String × YVal)) (hwf : wfEntries es = true) :
    treeEntries (entriesForest es) = some es :=
  (convRound (sizeOf es)).1 es (Nat.le_refl _) hwf

theorem treeItems_itemsForest (vs : List YVal) (hwf : wfItems vs = true) :
    treeItems (itemsForest vs) = some vs :=
  (convRound (sizeOf vs)).2.1 vs (Nat.le_refl _) hwf

theorem forestValOf_entries (e : String × YVal) (es : List (String × YVal))
    (hwf : wfEntries (e :: es) = true) :
    forestValOf (entriesForest (e :: es)) = some (.map (e :: es)) :=
  (convRound (sizeOf (e :: es))).2.2.1 e es (Nat.le_refl _) hwf

theorem forestValOf_items (v : YVal) (vs : List YVal) (hwf : wfItems (v :: vs) = true) :
    forestValOf (itemsForest (v :: vs)) = some (.list (v :: vs)) :=
  (convRound (sizeOf (v :: vs))).2.2.2.1 v vs (Nat.le_refl _) hwf

theorem parseDigitsAux_bad (cs : List Char) (c : Char) (hc : c ∈ cs)
    (hbad : digitVal c = none) : ∀ acc, parseDigitsAux acc cs = none := by
  induction cs with
  | nil => exact absurd hc (List.not_mem_nil c)
  | cons a rest ih =>
    intro acc
    rcases List.mem_cons.mp hc with h | h
    · subst h
      rw [parseDigitsAux, hbad]
    · rw [parseDigitsAux]
      cases hda : digitVal a with
      | none => rfl
      | some d => exact ih h _

theorem parseNatChars_bad (cs : List Char) (c : Char) (hc : c ∈ cs)
    (hbad : digitVal c = none) : parseNatChars cs = none := by
  unfold parseNatChars
  by_cases h : cs = []
  · rw [if_pos h]
  · rw [if_neg h]
    exact parseDigitsAux_bad cs c hc hbad 0

theorem parseFlat_entryLine_none (k : String) (f : List Char)
    (hk : validKey k = true) : parseFlat (k.toList ++ ':' :: f) = none := by
  obtain ⟨hne, hall⟩ := validKey_props k hk
  obtain ⟨c0, kr, hkl⟩ : ∃ c0 kr, k.toList = c0 :: kr := by
    cases hc : k.toList with
    | nil => exact absurd hc hne
    | cons a as => exact ⟨a, as, rfl⟩
  have hc0 : validKeyChar c0 = true := hall c0 (by rw [hkl]; exact List.mem_cons_self _ _)
  have hcolon : ':' ∈ k.toList ++ ':' :: f :=
    List.mem_append.mpr (Or.inr (List.mem_cons_self _ _))
  have hword : ∀ w : List Char, ':' ∉ w → k.toList ++ ':' :: f ≠ w := by
    intro w hw heq
    rw [heq] at hcolon
    exact hw hcolon
  unfold parseFlat
  rw [if_neg (hword _ (by decide)), if_neg (hword _ (by decide)),
    if_neg (hword _ (by decide)), if_neg (hword _ (by decide)),
    if_neg (hword _ (by decide))]
  rw [hkl, List.cons_append]
  simp only [parseFlatCore]
  have hq : ¬ c0 = '"' := by
    intro h; rw [h] at hc0; exact absurd hc0 (by decide)
  have hd : ¬ c0 = '-' := by
    intro h; rw [h] at hc0; exact absurd hc0 (by decide)
  rw [if_neg hq, if_neg hd]
  rw [parseNatChars_bad _ ':'
    (List.mem_cons.mpr (Or.inr (List.mem_append.mpr (Or.inr (List.mem_cons_self _ _)))))
    (by decide)]
  rfl

theorem parseFlat_itemLine_none (f : List Char) :
    parseFlat ('-' :: ' ' :: f) = none := by
  have hword : ∀ (w : List Char) (c1 : Char), w.head? = some c1 → c1 ≠ '-' →
      '-' :: ' ' :: f ≠ w := by
    intro w c1 hw hc1 heq
    have := congrArg List.head? heq
    simp only [List.head?_cons, hw] at this
    exact hc1 (Option.some.inj this).symm
  unfold parseFlat
  rw [if_neg (hword "null".toList 'n' rfl (by decide)),
    if_neg (hword "true".toList 't' rfl (by decide)),
    if_neg (hword "false".toList 'f' rfl (by decide)),
    if_neg (hword "[]".toList '[' rfl (by decide)),
    if_neg (hword "{}".toList '{' rfl (by decide))]
  simp only [parseFlatCore]
  rw [if_pos trivial]
  rw [parseNatChars_bad _ ' ' (List.mem_cons_self _ _) (by decide)]
  rfl

theorem parseFlat_dash_none : parseFlat ['-'] = none := rfl

theorem newline_not_mem_renderInt (i : Int) : ('\n' : Char) ∉ renderInt i := by
  intro h
  rcases renderInt_chars i '\n' h with h1 | h1
  · exact absurd h1 (by decide)
  · revert h1; decide

theorem newline_not_mem_flatOf (v : YVal) (hv : (renderFlat v).isSome) :
    ('\n' : Char) ∉ flatOf v := by
  cases v with
  | null => decide
  | bool b => cases b <;> decide
  | int i =>
    show ('\n' : Char) ∉ renderInt i
    exact newline_not_mem_renderInt i
  | str s =>
    show ('\n' : Char) ∉ renderStr s
    unfold renderStr
    intro h
    rcases List.mem_cons.mp h with h1 | h1
    · exact absurd h1 (by decide)
    · rcases List.mem_append.mp h1 with h2 | h2
      · exact newline_not_mem_escape s.toList h2
      · simp at h2
  | list vs =>
    cases vs with
    | nil => decide
    | cons x xs => simp [renderFlat] at hv
  | map es =>
    cases es with
    | nil => decide
    | cons e es' => simp [renderFlat] at hv

theorem goodContent_of (cs : List Char) (hne : cs ≠ []) (hhd : cs.head? ≠ some ' ')
    (hnl : '\n' ∉ cs) (hpf : parseFlat cs = none) : goodContent cs = true := by
  unfold goodContent
  rw [Bool.and_eq_true, Bool.and_eq_true, Bool.and_eq_true]
  refine ⟨⟨⟨?_, ?_⟩, ?_⟩, ?_⟩
  · cases cs with
    | nil => exact absurd rfl hne
    | cons a as => rfl
  · simp [hhd]
  · simp [hnl]
  · rw [hpf]; rfl

theorem goodContent_props (cs : List Char) (h : goodContent cs = true) :
    cs ≠ [] ∧ cs.head? ≠ some ' ' ∧ '\n' ∉ cs ∧ parseFlat cs = none := by
  unfold goodContent at h
  rw [Bool.and_eq_true, Bool.and_eq_true, Bool.and_eq_true] at h
  obtain ⟨⟨⟨h1, h2⟩, h3⟩, h4⟩ := h
  refine ⟨?_, ?_, ?_, ?_⟩
  · intro hc; rw [hc] at h1; simp at h1
  · simp at h2; exact h2
  · simp at h3; exact h3
  · exact Option.isNone_iff_eq_none.mp h4

theorem newline_not_mem_key (k : String) (hk : validKey k = true) :
    '\n' ∉ k.toList := by
  intro h
  have := (validKey_props k hk).2 '\n' h
  exact absurd this (by decide)

theorem head_of_key_append (k : String) (hk : validKey k = true) (rest : List Char) :
    ∃ c0, (k.toList ++ rest).head? = some c0 ∧ validKeyChar c0 = true := by
  obtain ⟨hne, hall⟩ := validKey_props k hk
  cases hc : k.toList with
  | nil => exact absurd hc hne
  | cons a as =>
    refine ⟨a, by rw [List.cons_append]; rfl, hall a (by rw [hc]; exact List.mem_cons_self _ _)⟩

theorem flatOf_ne_nil (v : YVal) (hv : (renderFlat v).isSome) : flatOf v ≠ [] := by
  cases v with
  | null => decide
  | bool b => cases b <;> decide
  | int i =>
    show renderInt i ≠ []
    unfold renderInt
    by_cases h1 : i < 0
    · rw [if_pos h1]; simp
    · by_cases h2 : i = 0
      · rw [if_neg h1, if_pos h2]; simp
      · rw [if_neg h1, if_neg h2]
        exact renderNat_ne_nil i.toNat (by omega)
  | str s =>
    show renderStr s ≠ []
    unfold renderStr
    simp
  | list vs =>
    cases vs with
    | nil => decide
    | cons x xs => simp [renderFlat] at hv
  | map es =>
    cases es with
    | nil => decide
    | cons e es' => simp [renderFlat] at hv

theorem flatOf_head_ne_space (v : YVal) (hv : (renderFlat v).isSome) :
    (flatOf v).head? ≠ some ' ' := by
  cases v with
  | null => decide
  | bool b => cases b <;> decide
  | int i =>
    show (renderInt i).head? ≠ some ' '
    intro h
    obtain ⟨c0, cr, hcons⟩ : ∃ c0 cr, renderInt i = c0 :: cr := by
      cases hc : renderInt i with
      | nil =>
        have : flatOf (.int i) ≠ [] := flatOf_ne_nil (.int i) (by simp [renderFlat])
        exact absurd hc this
      | cons a as => exact ⟨a, as, rfl⟩
    rw [hcons] at h
    have hc0 : c0 = ' ' := Option.some.inj (by simpa using h)
    have : (' ' : Char) ∈ renderInt i := by
      rw [hcons, ← hc0]
      exact List.mem_cons_self _ _
    rcases renderInt_chars i ' ' this with h1 | h1
    · exact absurd h1 (by decide)
    · revert h1; decide
  | str s =>
    show (renderStr s).head? ≠ some ' '
    unfold renderStr
    simp
  | list vs =>
    cases vs with
    | nil => decide
    | cons x xs => simp [renderFlat] at hv
  | map es =>
    cases es with
    | nil => decide
    | cons e es' => simp [renderFlat] at hv

theorem goodContent_entryFlat (k : String) (v : YVal) (hk : validKey k = true)
    (hv : (renderFlat v).isSome) :
    goodContent (k.toList ++ ':' :: ' ' :: flatOf v) = true := by
  obtain ⟨c0, hhd, hc0⟩ := head_of_key_append k hk (':' :: ' ' :: flatOf v)
  refine goodContent_of _ ?_ ?_ ?_ ?_
  · simp
  · rw [hhd]
    intro h
    have : c0 = ' ' := Option.some.inj h
    rw [this] at hc0
    exact absurd hc0 (by decide)
  · intro h
    rcases List.mem_append.mp h with h1 | h1
    · exact newline_not_mem_key k hk h1
    · rcases List.mem_cons.mp h1 with h2 | h2
      · exact absurd h2 (by decide)
      · rcases List.mem_cons.mp h2 with h3 | h3
        · exact absurd h3 (by decide)
        · exact newline_not_mem_flatOf v hv h3
  · exact parseFlat_entryLine_none k _ hk

theorem goodContent_entryNested (k : String) (hk : validKey k = true) :
    goodContent (k.toList ++ [':']) = true := by
  obtain ⟨c0, hhd, hc0⟩ := head_of_key_append k hk [':']
  refine goodContent_of _ ?_ ?_ ?_ ?_
  · simp
  · rw [hhd]
    intro h
    have : c0 = ' ' := Option.some.inj h
    rw [this] at hc0
    exact absurd hc0 (by decide)
  · intro h
    rcases List.mem_append.mp h with h1 | h1
    · exact newline_not_mem_key k hk h1
    · rcases List.mem_cons.mp h1 with h2 | h2
      · exact absurd h2 (by decide)
      · exact absurd h2 (List.not_mem_nil _)
  · exact parseFlat_entryLine_none k [] hk

theorem goodContent_itemFlat (v : YVal) (hv : (renderFlat v).isSome) :
    goodContent ('-' :: ' ' :: flatOf v) = true := by
  refine goodContent_of _ ?_ ?_ ?_ ?_
  · simp
  · intro h
    have := Option.some.inj h
    exact absurd this (by decide)
  · intro h
    rcases List.mem_cons.mp h with h1 | h1
    · exact absurd h1 (by decide)
    · rcases List.mem_cons.mp h1 with h2 | h2
      · exact absurd h2 (by decide)
      · exact newline_not_mem_flatOf v hv h2
  · exact parseFlat_itemLine_none _

theorem goodContent_dash : goodContent ['-'] = true := by decide

theorem goodRound (n : Nat) :
    (∀ es, sizeOf es ≤ n → wfEntries es = true → goodF (entriesForest es) = true)
  ∧ (∀ vs, sizeOf vs ≤ n → wfItems vs = true → goodF (itemsForest vs) = true)
  ∧ (∀ k v, sizeOf v ≤ n → validKey k = true → wfVal v = true →
      goodT (entryTree (k, v)) = true)
  ∧ (∀ v, sizeOf v ≤ n → wfVal v = true → goodT (itemTree v) = true) := by
  induction n with
  | zero =>
    refine ⟨?_, ?_, ?_, ?_⟩
    · intro es hsz
      exact absurd hsz (by have := list_sizeOf_pos es; omega)
    · intro vs hsz
      exact absurd hsz (by have := list_sizeOf_pos vs; omega)
    · intro k v hsz
      exact absurd hsz (by have := yval_sizeOf_pos v; omega)
    · intro v hsz
      exact absurd hsz (by have := yval_sizeOf_pos v; omega)
  | succ n ih =>
    obtain ⟨ihE, ihI, ihEN, ihIT⟩ := ih
    have hE : ∀ es, sizeOf es ≤ n + 1 → wfEntries es = true →
        goodF (entriesForest es) = true := by
      intro es hsz hwf
      cases es with
      | nil => simp [entriesForest, goodF]
      | cons e es' =>
        obtain ⟨k, v⟩ := e
        simp only [wfEntries, Bool.and_eq_true] at hwf
        obtain ⟨⟨hk, hv⟩, hes'⟩ := hwf
        simp only [List.cons.sizeOf_spec, Prod.mk.sizeOf_spec] at hsz
        rw [entriesForest_cons]
        simp only [goodF, Bool.and_eq_true]
        exact ⟨ihEN k v (by have := list_sizeOf_pos es'; omega) hk hv,
          ihE es' (by have := yval_sizeOf_pos v; omega) hes'⟩
    have hI : ∀ vs, sizeOf vs ≤ n + 1 → wfItems vs = true →
        goodF (itemsForest vs) = true := by
      intro vs hsz hwf
      cases vs with
      | nil => simp [itemsForest, goodF]
      | cons v vs' =>
        simp only [wfItems, Bool.and_eq_true] at hwf
        obtain ⟨hv, hvs'⟩ := hwf
        simp only [List.cons.sizeOf_spec] at hsz
        rw [itemsForest_cons]
        simp only [goodF, Bool.and_eq_true]
        exact ⟨ihIT v (by have := list_sizeOf_pos vs'; omega) hv,
          ihI vs' (by have := yval_sizeOf_pos v; omega) hvs'⟩
    have hEN : ∀ k v, sizeOf v ≤ n + 1 → validKey k = true → wfVal v = true →
        goodT (entryTree (k, v)) = true := by
      intro k v hsz hk hwf
      by_cases hflat : (renderFlat v).isSome
      · rw [entryTree_flatEq k v hflat]
        simp only [goodT, goodF, Bool.and_eq_true]
        exact ⟨goodContent_entryFlat k v hk hflat, trivial⟩
      · cases v with
        | null => simp [renderFlat] at hflat
        | bool b => cases b <;> simp [renderFlat] at hflat
        | int i => simp [renderFlat] at hflat
        | str s => simp [renderFlat] at hflat
        | list vs =>
          cases vs with
          | nil => simp [renderFlat] at hflat
          | cons x xs =>
            simp only [wfVal] at hwf
            simp only [YVal.list.sizeOf_spec] at hsz
            rw [show entryTree (k, .list (x :: xs))
                = .node (k.toList ++ [':']) (itemsForest (x :: xs)) from by simp [entryTree]]
            simp only [goodT, Bool.and_eq_true]
            exact ⟨goodContent_entryNested k hk, hI (x :: xs) (by omega) hwf⟩
        | map es =>
          cases es with
          | nil => simp [renderFlat] at hflat
          | cons e es' =>
            simp only [wfVal] at hwf
            simp only [YVal.map.sizeOf_spec] at hsz
            rw [show entryTree (k, .map (e :: es'))
                = .node (k.toList ++ [':']) (entriesForest (e :: es')) from by simp [entryTree]]
            simp only [goodT, Bool.and_eq_true]
            exact ⟨goodContent_entryNested k hk, hE (e :: es') (by omega) hwf⟩
    have hIT : ∀ v, sizeOf v ≤ n + 1 → wfVal v = true →
        goodT (itemTree v) = true := by
      intro v hsz hwf
      by_cases hflat : (renderFlat v).isSome
      · rw [itemTree_flatEq v hflat]
        simp only [goodT, goodF, Bool.and_eq_true]
        exact ⟨goodContent_itemFlat v hflat, trivial⟩
      · cases v with
        | null => simp [renderFlat] at hflat
        | bool b => cases b <;> simp [renderFlat] at hflat
        | int i => simp [renderFlat] at hflat
        | str s => simp [renderFlat] at hflat
        | list vs =>
          cases vs with
          | nil => simp [renderFlat] at hflat
          | cons x xs =>
            simp only [wfVal] at hwf
            simp only [YVal.list.sizeOf_spec] at hsz
            rw [show itemTree (.list (x :: xs))
                = .node ['-'] (itemsForest (x :: xs)) from by simp [itemTree]]
            simp only [goodT, Bool.and_eq_true]
            exact ⟨goodContent_dash, hI (x :: xs) (by omega) hwf⟩
        | map es =>
          cases es with
          | nil => simp [renderFlat] at hflat
          | cons e es' =>
            simp only [wfVal] at hwf
            simp only [YVal.map.sizeOf_spec] at hsz
            rw [show itemTree (.map (e :: es'))
                = .node ['-'] (entriesForest (e :: es')) from by simp [itemTree]]
            simp only [goodT, Bool.and_eq_true]
            exact ⟨goodContent_dash, hE (e :: es') (by omega) hwf⟩
    exact ⟨hE, hI, hEN, hIT⟩

theorem flattenF_goodLines (n : Nat) : ∀ ts ind, sizeOf ts ≤ n → goodF ts = true →
    ∀ l ∈ flattenF ind ts, goodContent l.2 = true := by
  induction n with
  | zero =>
    intro ts ind hsz
    exact absurd hsz (by have := list_sizeOf_pos ts; omega)
  | succ n ih =>
    intro ts ind hsz hgood l hl
    cases ts with
    | nil =>
      rw [show flattenF ind [] = [] from by simp [flattenF]] at hl
      exact absurd hl (List.not_mem_nil l)
    | cons t ts' =>
      obtain ⟨c, ch⟩ := t
      simp only [goodF, goodT, Bool.and_eq_true] at hgood
      obtain ⟨⟨hc, hch⟩, hts'⟩ := hgood
      simp only [List.cons.sizeOf_spec, LTree.node.sizeOf_spec] at hsz
      rw [flattenF_cons] at hl
      rcases List.mem_cons.mp hl with h1 | h1
      · rw [h1]
        exact hc
      · rcases List.mem_append.mp h1 with h2 | h2
        · exact ih ch (ind + 2) (by have := list_sizeOf_pos ts'; omega) hch l h2
        · exact ih ts' ind (by have := list_sizeOf_pos ch; omega) hts' l h2

theorem splitNl_ne_nil (cs : List Char) : splitNl cs ≠ [] := by
  cases cs with
  | nil => simp [splitNl]
  | cons c rest =>
    rw [splitNl.eq_def]
    dsimp only
    cases h : splitNl rest with
    | nil => simp
    | cons l ls =>
      dsimp only
      by_cases hc : c = '\n'
      · rw [if_pos hc]; simp
      · rw [if_neg hc]; simp

theorem splitNl_no_newline (l : List Char) (h : '\n' ∉ l) : splitNl l = [l] := by
  induction l with
  | nil => rfl
  | cons c rest ih =>
    have hc : ¬ c = '\n' := by
      intro hcc
      exact h (hcc ▸ List.mem_cons_self c rest)
    have hrest : '\n' ∉ rest := fun hr => h (List.mem_cons_of_mem c hr)
    rw [splitNl.eq_def]
    dsimp only
    rw [ih hrest]
    dsimp only
    rw [if_neg hc]

theorem splitNl_append_newline (l rest : List Char) (h : '\n' ∉ l) :
    splitNl (l ++ '\n' :: rest) = l :: splitNl rest := by
  induction l with
  | nil =>
    rw [List.nil_append, splitNl.eq_def]
    dsimp only
    cases hs : splitNl rest with
    | nil => exact absurd hs (splitNl_ne_nil rest)
    | cons a as =>
      dsimp only
      rw [if_pos (show ('\n' : Char) = '\n' from rfl)]
  | cons c l' ih =>
    have hc : ¬ c = '\n' := by
      intro hcc
      exact h (hcc ▸ List.mem_cons_self c l')
    have hl' : '\n' ∉ l' := fun hr => h (List.mem_cons_of_mem c hr)
    rw [List.cons_append, splitNl.eq_def]
    dsimp only
    rw [ih hl']
    dsimp only
    rw [if_neg hc]

theorem splitNl_joinNl (lines : List (List Char)) (hne : lines ≠ [])
    (hnl : ∀ l ∈ lines, '\n' ∉ l) :
    splitNl (joinNl lines ++ ['\n']) = lines ++ [[]] := by
  induction lines with
  | nil => exact absurd rfl hne
  | cons l ls ih =>
    cases ls with
    | nil =>
      rw [show joinNl [l] = l from by simp [joinNl]]
      rw [show l ++ ['\n'] = l ++ '\n' :: [] from rfl]
      rw [splitNl_append_newline l [] (hnl l (List.mem_cons_self _ _))]
      rfl
    | cons l2 ls' =>
      rw [show joinNl (l :: l2 :: ls') = l ++ '\n' :: joinNl (l2 :: ls') from by
        simp [joinNl]]
      rw [List.append_assoc, List.cons_append]
      rw [splitNl_append_newline l _ (hnl l (List.mem_cons_self _ _))]
      rw [ih (by simp) (fun x hx => hnl x (List.mem_cons_of_mem l hx))]
      rfl

theorem dropWhile_key (p : Char → Bool) (xs zs : List Char) (y : Char)
    (hx : ∀ x ∈ xs, p x = true) (hy : p y = false) :
    (xs ++ y :: zs).dropWhile p = y :: zs := by
  induction xs with
  | nil => simp [List.dropWhile_cons, hy]
  | cons a as ih =>
    have ha : p a = true := hx a (List.mem_cons_self a as)
    rw [List.cons_append, List.dropWhile_cons, ha]
    simp only [if_true]
    exact ih (fun x hx2 => hx x (List.mem_cons_of_mem a hx2))

theorem stripIndent_renderLine (l : Line) (hne : l.2 ≠ []) (hhd : l.2.head? ≠ some ' ') :
    stripIndent (renderLine l) = l := by
  obtain ⟨i, c⟩ := l
  obtain ⟨c0, cr, hc⟩ : ∃ c0 cr, c = c0 :: cr := by
    cases hcc : c with
    | nil => exact absurd hcc hne
    | cons a as => exact ⟨a, as, rfl⟩
  subst hc
  have hc0 : ¬ c0 = ' ' := by
    intro h
    exact hhd (by rw [h]; rfl)
  have hsp : ∀ x ∈ List.replicate i ' ', (fun ch => ch == ' ') x = true := by
    intro x hx
    rw [List.eq_of_mem_replicate hx]
    simp
  have hc0b : (fun ch => ch == ' ') c0 = false := by
    simp [hc0]
  unfold stripIndent renderLine
  rw [takeWhile_key _ _ _ _ hsp hc0b, dropWhile_key _ _ _ _ hsp hc0b]
  simp

theorem emitDoc_lines_ok (v : YVal) (hwf : wfVal v = true) :
    ∀ l ∈ emitDoc v, l.2 ≠ [] ∧ l.2.head? ≠ some ' ' ∧ '\n' ∉ l.2 := by
  by_cases hflat : (renderFlat v).isSome
  · intro l hl
    have : emitDoc v = [(0, flatOf v)] := by
      cases v with
      | null => rfl
      | bool b => cases b <;> rfl
      | int i => rfl
      | str s => rfl
      | list vs =>
        cases vs with
        | nil => rfl
        | cons x xs => simp [renderFlat] at hflat
      | map es =>
        cases es with
        | nil => rfl
        | cons e es' => simp [renderFlat] at hflat
    rw [this] at hl
    rcases List.mem_cons.mp hl with h1 | h1
    · rw [h1]
      exact ⟨flatOf_ne_nil v hflat, flatOf_head_ne_space v hflat,
        newline_not_mem_flatOf v hflat⟩
    · exact absurd h1 (List.not_mem_nil l)
  · cases v with
    | null => simp [renderFlat] at hflat
    | bool b => cases b <;> simp [renderFlat] at hflat
    | int i => simp [renderFlat] at hflat
    | str s => simp [renderFlat] at hflat
    | list vs =>
      cases vs with
      | nil => simp [renderFlat] at hflat
      | cons x xs =>
        intro l hl
        simp only [wfVal] at hwf
        have hgf : goodF (itemsForest (x :: xs)) = true :=
          (goodRound (sizeOf (x :: xs))).2.1 (x :: xs) (Nat.le_refl _) hwf
        have := flattenF_goodLines (sizeOf (itemsForest (x :: xs)))
          (itemsForest (x :: xs)) 0 (Nat.le_refl _) hgf l hl
        obtain ⟨h1, h2, h3, _⟩ := goodContent_props l.2 this
        exact ⟨h1, h2, h3⟩
    | map es =>
      cases es with
      | nil => simp [renderFlat] at hflat
      | cons e es' =>
        intro l hl
        simp only [wfVal] at hwf
        have hgf : goodF (entriesForest (e :: es')) = true :=
          (goodRound (sizeOf (e :: es'))).1 (e :: es') (Nat.le_refl _) hwf
        have := flattenF_goodLines (sizeOf (entriesForest (e :: es')))
          (entriesForest (e :: es')) 0 (Nat.le_refl _) hgf l hl
        obtain ⟨h1, h2, h3, _⟩ := goodContent_props l.2 this
        exact ⟨h1, h2, h3⟩

theorem emitDoc_flat (v : YVal) (hflat : (renderFlat v).isSome) :
    emitDoc v = [(0, flatOf v)] := by
  cases v with
  | null => rfl
  | bool b => cases b <;> rfl
  | int i => rfl
  | str s => rfl
  | list vs =>
    cases vs with
    | nil => rfl
    | cons x xs => simp [renderFlat] at hflat
  | map es =>
    cases es with
    | nil => rfl
    | cons e es' => simp [renderFlat] at hflat

theorem parseDoc_single (c : List Char) :
    parseDoc [(0, c)] = match parseFlat c with
      | some v => some v
      | none => parseTop [(0, c)] := rfl

theorem parseDoc_multi (p q : Line) (rs : List Line) :
    parseDoc (p :: q :: rs) = parseTop (p :: q :: rs) := by
  obtain ⟨i, c⟩ := p
  cases i with
  | zero => rfl
  | succ j => rfl

theorem parseTop_forest (t : LTree) (rest : List LTree) (v : YVal)
    (hfv : forestValOf (t :: rest) = some v) :
    parseTop (flattenF 0 (t :: rest)) = some v := by
  unfold parseTop
  have hu := unflatten_flattenF ((flattenF 0 (t :: rest)).length) (t :: rest) 0 []
    (Nat.le_refl _) trivial
  rw [List.append_nil] at hu
  rw [hu]
  exact hfv

theorem parseDoc_forestLines (t : LTree) (rest : List LTree) (v : YVal)
    (hgood : goodT t = true) (hfv : forestValOf (t :: rest) = some v) :
    parseDoc (flattenF 0 (t :: rest)) = some v := by
  obtain ⟨c, ch⟩ := t
  have hpf : parseFlat c = none := by
    simp only [goodT, Bool.and_eq_true] at hgood
    exact (goodContent_props c hgood.1).2.2.2
  rw [flattenF_cons]
  cases hrest : flattenF (0 + 2) ch ++ flattenF 0 rest with
  | nil =>
    rw [parseDoc_single, hpf]
    have hL : [((0 : Nat), c)] = flattenF 0 (LTree.node c ch :: rest) := by
      rw [flattenF_cons, hrest]
    rw [hL]
    exact parseTop_forest _ rest v hfv
  | cons q rs =>
    rw [parseDoc_multi]
    have hL : ((0 : Nat), c) :: q :: rs = flattenF 0 (LTree.node c ch :: rest) := by
      rw [flattenF_cons, hrest]
    rw [hL]
    exact parseTop_forest _ rest v hfv

theorem parseDoc_emitDoc (v : YVal) (hwf : wfVal v = true) :
    parseDoc (emitDoc v) = some v := by
  by_cases hflat : (renderFlat v).isSome
  · rw [emitDoc_flat v hflat, parseDoc_single, parseFlat_flatOf v hflat]
  · cases v with
    | null => simp [renderFlat] at hflat
    | bool b => cases b <;> simp [renderFlat] at hflat
    | int i => simp [renderFlat] at hflat
    | str s => simp [renderFlat] at hflat
    | list vs =>
      cases vs with
      | nil => simp [renderFlat] at hflat
      | cons x xs =>
        simp only [wfVal] at hwf
        have hwx : wfVal x = true := by
          simp only [wfItems, Bool.and_eq_true] at hwf
          exact hwf.1
        have hfv : forestValOf (itemTree x :: itemsForest xs) = some (.list (x :: xs)) := by
          rw [← itemsForest_cons]
          exact forestValOf_items x xs hwf
        have hgood : goodT (itemTree x) = true :=
          (goodRound (sizeOf x)).2.2.2 x (Nat.le_refl _) hwx
        have hemit : emitDoc (.list (x :: xs)) = flattenF 0 (itemTree x :: itemsForest xs) := by
          rw [show emitDoc (.list (x :: xs)) = flattenF 0 (itemsForest (x :: xs)) from rfl,
            itemsForest_cons]
        rw [hemit]
        exact parseDoc_forestLines _ _ _ hgood hfv
    | map es =>
      cases es with
      | nil => simp [renderFlat] at hflat
      | cons e es' =>
        obtain ⟨k, v'⟩ := e
        simp only [wfVal] at hwf
        have hkv : validKey k = true ∧ wfVal v' = true := by
          simp only [wfEntries, Bool.and_eq_true] at hwf
          exact hwf.1
        have hfv : forestValOf (entryTree (k, v') :: entriesForest es')
            = some (.map ((k, v') :: es')) := by
          rw [← entriesForest_cons]
          exact forestValOf_entries (k, v') es' hwf
        have hgood : goodT (entryTree (k, v')) = true :=
          (goodRound (sizeOf v')).2.2.1 k v' (Nat.le_refl _) hkv.1 hkv.2
        have hemit : emitDoc (.map ((k, v') :: es'))
            = flattenF 0 (entryTree (k, v') :: entriesForest es') := by
          rw [show emitDoc (.map ((k, v') :: es'))
              = flattenF 0 (entriesForest ((k, v') :: es')) from rfl, entriesForest_cons]
        rw [hemit]
        exact parseDoc_forestLines _ _ _ hgood hfv

theorem emitDoc_ne_nil (v : YVal) : emitDoc v ≠ [] := by
  by_cases hflat : (renderFlat v).isSome
  · rw [emitDoc_flat v hflat]
    simp
  · cases v with
    | null => simp [renderFlat] at hflat
    | bool b => cases b <;> simp [renderFlat] at hflat
    | int i => simp [renderFlat] at hflat
    | str s => simp [renderFlat] at hflat
    | list vs =>
      cases vs with
      | nil => simp [renderFlat] at hflat
      | cons x xs =>
        show flattenF 0 (itemsForest (x :: xs)) ≠ []
        rw [itemsForest_cons]
        obtain ⟨c, ch⟩ := itemTree x
        rw [flattenF_cons]
        simp
    | map es =>
      cases es with
      | nil => simp [renderFlat] at hflat
      | cons e es' =>
        show flattenF 0 (entriesForest (e :: es')) ≠ []
        rw [entriesForest_cons]
        obtain ⟨c, ch⟩ := entryTree e
        rw [flattenF_cons]
        simp

/-- The central ruamel model fact: dumping any well-formed JSON-compatible
tree to YAML text and loading it back yields the same tree. -/
theorem yamlLoad_yamlDump (v : YVal) (hwf : wfVal v = true) :
    yamlLoad (yamlDump v) = .ok v := by
  unfold yamlLoad yamlDump
  have htl : (String.mk (joinNl ((emitDoc v).map renderLine) ++ ['\n'])).toList
      = joinNl ((emitDoc v).map renderLine) ++ ['\n'] := rfl
  rw [htl]
  have hlines := emitDoc_lines_ok v hwf
  have hne : (emitDoc v).map renderLine ≠ [] := by
    simp [emitDoc_ne_nil v]
  have hnl : ∀ l ∈ (emitDoc v).map renderLine, '\n' ∉ l := by
    intro l hl
    rw [List.mem_map] at hl
    obtain ⟨p, hp, rfl⟩ := hl
    obtain ⟨h1, h2, h3⟩ := hlines p hp
    unfold renderLine
    intro hmem
    rcases List.mem_append.mp hmem with hm | hm
    · exact absurd (List.eq_of_mem_replicate hm) (by decide)
    · exact h3 hm
  rw [splitNl_joinNl _ hne hnl]
  rw [List.getLast?_concat]
  rw [if_pos (rfl : some ([] : List Char) = some []), List.dropLast_concat]
  rw [List.map_map]
  have hmap : (emitDoc v).map (stripIndent ∘ renderLine) = emitDoc v := by
    have hid : ∀ p ∈ emitDoc v, (stripIndent ∘ renderLine) p = p := by
      intro p hp
      obtain ⟨h1, h2, _⟩ := hlines p hp
      exact stripIndent_renderLine p h1 h2
    calc (emitDoc v).map (stripIndent ∘ renderLine)
        = (emitDoc v).map id := List.map_congr_left hid
      _ = emitDoc v := List.map_id _
  rw [hmap, parseDoc_emitDoc v hwf]

/-! ## Claims -/

/-- C1: For every record r constructible from its schema (a pydantic model
instance whose `model_dump(mode="json")` is a JSON-compatible tree — here:
the dump succeeds, yields a mapping with identifier field names, and
pydantic's `model_validate` inverts it), `deserialize(serialize(r), schema)`
is field-wise equal to r, including multi-line string fields, fields with
YAML-special characters and Unicode text (the witness exercises all of
these). -/
theorem c1_round_trip {R : Type} (s : Schema R) (r : R) (tree : YVal) (y : String)
    (hdump : s.dump r = .ok tree)
    (hmap : ∃ es, tree = YVal.map es)
    (hwf : wfVal tree = true)
    (hpyd : s.validate tree = .ok r)
    (hser : serialize s r = .ok y) :
    deserialize s y = .ok r := by
  unfold serialize at hser
  rw [hdump] at hser
  have hy : y = yamlDump tree := (Except.ok.inj hser).symm
  subst hy
  unfold deserialize
  rw [yamlLoad_yamlDump tree hwf]
  obtain ⟨es, rfl⟩ := hmap
  dsimp only
  rw [show noneToEmptyMap (.map es) = .map es from rfl, hpyd]

/-- Witness for C1 at a concrete record with Unicode, an embedded newline,
and the YAML-special characters `:`, `|`, `>`, `&`, `%`, `#`, `~`, `/`
and a double quote. -/
theorem c1_round_trip_witness :
    deserialize participantSchema (yamlDump c1tree) = .ok c1record :=
  c1_round_trip participantSchema c1record c1tree (yamlDump c1tree)
    rfl ⟨_, rfl⟩
    (by simp [c1tree, wfVal, wfEntries, validKey, validKeyChar])
    rfl rfl

/-- C8: `deserialize` treats a fully empty (or null) YAML document as an
empty mapping before schema validation, so for every schema whose fields
all have defaults, `deserialize("", schema)` succeeds and returns the
record built from the defaults. -/
theorem c8_empty_doc_defaults {R : Type} (s : Schema R) (r0 : R)
    (hdef : s.validate (.map []) = .ok r0) :
    deserialize s "" = .ok r0 := by
  unfold deserialize
  rw [show yamlLoad "" = .ok .null from rfl]
  dsimp only
  rw [show noneToEmptyMap .null = .map [] from rfl, hdef]

/-- Witness for C8: a settings schema whose two fields both default. -/
theorem c8_empty_doc_defaults_witness :
    deserialize userSettingsSchema "" = .ok ⟨"light", true⟩ :=
  c8_empty_doc_defaults userSettingsSchema ⟨"light", true⟩ rfl

/-- C9: `save` serializes the record completely before any file write: when
serialization fails, `save` raises that serialization error and no
filesystem state is produced or changed (no partial or empty file); when it
succeeds, the write is exactly `write_file` of the serialized text. -/
theorem c9_save_serializes_before_write {R : Type} (s : Schema R) (r : R)
    (path : FPath) (fs : FS) :
    (∀ m, s.dump r = .error m →
      save s r path fs = .error (.yamlSerializeErr s.modelName m)) ∧
    (∀ tree, s.dump r = .ok tree →
      save s r path fs = .ok (writeFile fs path (yamlDump tree))) := by
  constructor
  · intro m hm
    unfold save serialize
    rw [hm]
  · intro tree ht
    unfold save serialize
    rw [ht]

/-- Witness for C9 at a model with a non-serializable field: `save` returns
the serialization error (so no write happens — the success case would have
produced a filesystem). -/
theorem c9_save_serializes_before_write_witness :
    save callbackFieldSchema () ⟨["data"], "x.yaml"⟩ ⟨[], [[]]⟩
      = .error (.yamlSerializeErr "ModelWithNonSerializableField"
          "Unable to serialize unknown type: function") :=
  (c9_save_serializes_before_write callbackFieldSchema () ⟨["data"], "x.yaml"⟩
    ⟨[], [[]]⟩).1 _ rfl

/-- C2 counterexample: the claim asserts that schema-validation failures
raise a distinct error kind from YAML-syntax failures.  In the code both
`except` branches of `YAMLHandler.deserialize` raise the same
`YAMLParseError` class: at the concrete malformed input `"name: ["`
(unclosed flow sequence) and the concrete well-formed but schema-violating
input `"age: true"`, the raised exception classes are equal. -/
theorem c2_counterexample :
    errClass (deserialize participantSchema "name: [")
      = errClass (deserialize participantSchema "age: true") ∧
    errClass (deserialize participantSchema "name: [") = some .yamlParseError ∧
    yamlLoad "name: [" = .error "Invalid YAML syntax" ∧
    yamlLoad "age: true" = .ok (.map [("age", .bool true)]) := by
  refine ⟨?_, ?_, ?_, ?_⟩ <;>
    simp [deserialize, yamlLoad, splitNl, stripIndent, parseDoc, parseTop, unflatten,
      unflattenF, parseFlat, parseFlatCore, parseNatChars, parseDigitsAux, digitVal,
      forestValOf, treeEntries, treeEntry, treeItems, treeItem, validKeyChar,
      errClass, AppError.pyClass, noneToEmptyMap, participantSchema, lookupKey, vmap2]

/-- C2 (amended): `deserialize` fails with `YAMLParseError` both for
malformed YAML syntax and for well-formed YAML that does not satisfy the
schema; the two cases raise the *same* exception class and are
distinguished by their details — the schema case carries the structured
list of all per-field violations (pydantic's `e.errors()`), not just the
first, while the syntax case carries the parser error. -/
theorem c2_parse_and_schema_errors {R : Type} (s : Schema R) (y : String) :
    (∀ e, yamlLoad y = .error e →
      deserialize s y = .error (.yamlMalformedErr e s.modelName) ∧
      errClass (deserialize s y) = some .yamlParseError) ∧
    (∀ d errs, yamlLoad y = .ok d → s.validate (noneToEmptyMap d) = .error errs →
      deserialize s y = .error (.yamlSchemaErr s.modelName errs) ∧
      errClass (deserialize s y) = some .yamlParseError) := by
  constructor
  · intro e he
    unfold deserialize
    rw [he]
    exact ⟨rfl, rfl⟩
  · intro d errs hd herrs
    unfold deserialize
    rw [hd]
    dsimp only
    rw [herrs]
    exact ⟨rfl, rfl⟩

/-- Witness for the amended C2, applying it at the two concrete inputs of
the counterexample; the schema case carries both field violations. -/
theorem c2_parse_and_schema_errors_witness :
    deserialize participantSchema "name: ["
      = .error (.yamlMalformedErr "Invalid YAML syntax" "Participant") ∧
    deserialize participantSchema "age: true"
      = .error (.yamlSchemaErr "Participant"
          [⟨"name", "Field required"⟩, ⟨"age", "Input should be a valid integer"⟩]) := by
  constructor
  · exact ((c2_parse_and_schema_errors participantSchema "name: [").1
      "Invalid YAML syntax" (by
        simp [yamlLoad, splitNl, stripIndent, parseDoc, parseTop, unflatten,
          unflattenF, parseFlat, parseFlatCore, parseNatChars, parseDigitsAux,
          digitVal, forestValOf, treeEntries, treeEntry, treeItems, treeItem,
          validKeyChar])).1
  · exact ((c2_parse_and_schema_errors participantSchema "age: true").2
      (.map [("age", .bool true)])
      [⟨"name", "Field required"⟩, ⟨"age", "Input should be a valid integer"⟩]
      (by
        simp [yamlLoad, splitNl, stripIndent, parseDoc, parseTop, unflatten,
          unflattenF, parseFlat, parseFlatCore, parseNatChars, parseDigitsAux,
          digitVal, forestValOf, treeEntries, treeEntry, treeItems, treeItem,
          validKeyChar])
      (by simp [noneToEmptyMap, participantSchema, lookupKey, vmap2])).1

/-- C3 counterexample: the claim asserts four distinct error kinds for the
four failure causes of `read_file`, in particular a `DecodeError` kind
distinct from `IOFault`.  In the code, a `UnicodeDecodeError` is mapped to
`FileOperationError` — the same exception class as every other OS error —
so at a concrete non-UTF-8 file and a concrete disk fault the raised
classes are equal. -/
theorem c3_counterexample :
    errClass (readFile ⟨["data"], "f.yaml"⟩ (.unicodeDecodeError "invalid start byte"))
      = errClass (readFile ⟨["data"], "f.yaml"⟩ (.osError "disk failure")) ∧
    errClass (readFile ⟨["data"], "f.yaml"⟩ (.unicodeDecodeError "invalid start byte"))
      = some .fileOperationError := ⟨rfl, rfl⟩

/-- C3 (amended): `read_file` maps file-not-found to
`AppFileNotFoundError`, permission errors to `FileAccessError`, and both
non-UTF-8 content and other OS errors to `FileOperationError` — three
distinct kinds, with the decode failure distinguished from other I/O
faults only by its message and details (which carry the encoding), not by
a distinct kind. -/
theorem c3_read_file_error_mapping (path : FPath) (m : String) :
    readFile path .fileNotFound = .error (.fileNotFoundErr path) ∧
    errClass (readFile path .fileNotFound) = some .appFileNotFoundError ∧
    readFile path (.permissionError m) = .error (.accessDeniedErr path m) ∧
    errClass (readFile path (.permissionError m)) = some .fileAccessError ∧
    readFile path (.unicodeDecodeError m) = .error (.decodeErr path m "utf-8") ∧
    errClass (readFile path (.unicodeDecodeError m)) = some .fileOperationError ∧
    readFile path (.osError m) = .error (.ioFaultErr path m) ∧
    errClass (readFile path (.osError m)) = some .fileOperationError ∧
    (PyExnClass.appFileNotFoundError ≠ PyExnClass.fileAccessError ∧
      PyExnClass.appFileNotFoundError ≠ PyExnClass.fileOperationError ∧
      PyExnClass.fileAccessError ≠ PyExnClass.fileOperationError) :=
  ⟨rfl, rfl, rfl, rfl, rfl, rfl, rfl, rfl, by decide, by decide, by decide⟩

theorem self_mem_ancestors (d : List String) : d ∈ ancestors d := by
  induction d with
  | nil => simp [ancestors]
  | cons a as ih =>
    unfold ancestors
    exact List.mem_cons.mpr (Or.inr (List.mem_map.mpr ⟨as, ih, rfl⟩))

theorem mem_dirs_mkdirParents (fs : FS) (d : List String) :
    d ∈ (fs.mkdirParents d).dirs := by
  unfold FS.mkdirParents
  exact List.mem_append.mpr (Or.inl (self_mem_ancestors d))

theorem tryAcquire_held (fs : FS) (path : FPath)
    (hheld : path.lockMarker ∈ fs.filePaths) :
    tryAcquireLockSync fs path = .ok (false, fs.mkdirParents path.parent) := by
  unfold tryAcquireLockSync openExclCreate
  dsimp only
  rw [if_neg (not_not_intro (mem_dirs_mkdirParents fs path.lockMarker.parent))]
  rw [if_pos (show path.lockMarker ∈
    (fs.mkdirParents path.lockMarker.parent).filePaths from hheld)]
  rfl

theorem tryAcquire_free (fs : FS) (path : FPath)
    (hfree : path.lockMarker ∉ fs.filePaths) :
    tryAcquireLockSync fs path
      = .ok (true, { fs.mkdirParents path.parent with
          entries := (path.lockMarker, "") :: (fs.mkdirParents path.parent).entries }) := by
  unfold tryAcquireLockSync openExclCreate
  dsimp only
  rw [if_neg (not_not_intro (mem_dirs_mkdirParents fs path.lockMarker.parent))]
  rw [if_neg (show path.lockMarker ∉
    (fs.mkdirParents path.lockMarker.parent).filePaths from hfree)]
  rfl

/-- C4: for every timeout value t ≤ 0, `acquire(path, t)` on a path whose
lock marker already exists fails with `FileLockError` after exactly one
create-exclusive attempt (attempt counter 1 — the sleep-and-retry branch
is never taken), and the failure detail echoes back the timeout t, the
path, the lock marker path, and that the marker currently exists. -/
theorem c4_nonpositive_timeout_fails_immediately (fs : FS) (reg : Registry)
    (path : FPath) (timeout : ℚ) (elapsed wall : Nat → ℚ) (fuel : Nat)
    (htime : timeout ≤ 0) (helapsed : 0 ≤ elapsed 0)
    (hheld : path.lockMarker ∈ fs.filePaths) :
    acquireLock fs reg path timeout elapsed wall (fuel + 1)
      = .err (.lockTimeoutErr path timeout path.lockMarker true)
          (fs.mkdirParents path.parent) 1 := by
  unfold acquireLock
  simp only [acquireLockLoop]
  rw [tryAcquire_held fs path hheld]
  dsimp only
  rw [if_pos (le_trans htime helapsed)]
  rw [decide_eq_true
    (show path.lockMarker ∈ (fs.mkdirParents path.parent).filePaths from hheld)]

/-- Witness for C4: a negative timeout on an already-locked path. -/
theorem c4_nonpositive_timeout_witness :
    acquireLock c4fs [] c4path (-1) (fun _ => 0) (fun _ => 0) 3
      = .err (.lockTimeoutErr c4path (-1) c4path.lockMarker true)
          (c4fs.mkdirParents c4path.parent) 1 :=
  c4_nonpositive_timeout_fails_immediately c4fs [] c4path (-1)
    (fun _ => 0) (fun _ => 0) 2 (by norm_num) (by norm_num) (by decide)

theorem not_mem_map_fst_filter_ne {β : Type} (l : List (FPath × β)) (p : FPath) :
    p ∉ (l.filter (fun e => decide (e.1 ≠ p))).map Prod.fst := by
  intro h
  rw [List.mem_map] at h
  obtain ⟨e, he, hfst⟩ := h
  rw [List.mem_filter] at he
  exact (of_decide_eq_true he.2) hfst

theorem removeKey_idem (reg : Registry) (p : FPath) :
    removeKey (removeKey reg p) p = removeKey reg p := by
  unfold removeKey
  induction reg with
  | nil => rfl
  | cons e es ih =>
    rw [List.filter_cons]
    by_cases he : e.1 = p
    · rw [if_neg (by simp [he])]
      exact ih
    · rw [if_pos (by simp [he]), List.filter_cons, if_pos (by simp [he]), ih]

/-- C5: `release(lock)` never raises (it is total by construction — the
unlink `OSError` is caught and logged); after a successful release the
marker file is gone; the lock's path is removed from the Active Lock
Registry whether or not the unlink succeeds; and a second release of the
same lock (with any unlink outcome) leaves the state unchanged. -/
theorem c5_release_idempotent_never_raises (fs : FS) (reg : Registry)
    (lock : FileLock) (unlinkOk unlinkOk2 : Bool) :
    lock.lockFile ∉ (releaseLock fs reg lock true).1.filePaths ∧
    lock.path ∉ ((releaseLock fs reg lock unlinkOk).2.map Prod.fst) ∧
    releaseLock (releaseLock fs reg lock true).1 (releaseLock fs reg lock true).2
        lock unlinkOk2 = releaseLock fs reg lock true := by
  have hA : lock.lockFile ∉ (releaseLockSync fs lock true).filePaths := by
    unfold releaseLockSync
    by_cases hmem : lock.lockFile ∈ fs.filePaths
    · rw [if_pos hmem]
      show lock.lockFile ∉
        ({ fs with entries := removeEntry fs.entries lock.lockFile }).filePaths
      unfold FS.filePaths removeEntry
      exact not_mem_map_fst_filter_ne fs.entries lock.lockFile
    · rw [if_neg hmem]
      exact hmem
  refine ⟨hA, ?_, ?_⟩
  · show lock.path ∉ (removeKey reg lock.path).map Prod.fst
    unfold removeKey
    exact not_mem_map_fst_filter_ne reg lock.path
  · show releaseLock (releaseLockSync fs lock true) (removeKey reg lock.path)
        lock unlinkOk2 = (releaseLockSync fs lock true, removeKey reg lock.path)
    unfold releaseLock
    congr 1
    · show releaseLockSync (releaseLockSync fs lock true) lock unlinkOk2
        = releaseLockSync fs lock true
      set fs2 := releaseLockSync fs lock true with hfs2
      unfold releaseLockSync
      rw [if_neg hA]
    · exact removeKey_idem reg lock.path

/-- C10: `acquire(path, timeout)` creates any missing parent directories of
the lock marker before attempting the exclusive create, so for every
target path whose parent directory does not exist, a first acquire (free
marker) succeeds in one attempt — rather than failing with a not-found
error — and leaves the parent directory created and the marker present. -/
theorem c10_acquire_creates_parent_dirs (fs : FS) (reg : Registry) (path : FPath)
    (timeout : ℚ) (elapsed wall : Nat → ℚ) (fuel : Nat)
    (_hnoparent : path.parent ∉ fs.dirs)
    (hfree : path.lockMarker ∉ fs.filePaths) :
    ∃ fs1, acquireLock fs reg path timeout elapsed wall (fuel + 1)
        = .ok ⟨path, wall 0⟩ fs1 ((path, ⟨path, wall 0⟩) :: removeKey reg path) 1 ∧
      path.parent ∈ fs1.dirs ∧ path.lockMarker ∈ fs1.filePaths := by
  refine ⟨{ fs.mkdirParents path.parent with
    entries := (path.lockMarker, "") :: (fs.mkdirParents path.parent).entries },
    ?_, ?_, ?_⟩
  · unfold acquireLock
    simp only [acquireLockLoop]
    rw [tryAcquire_free fs path hfree]
  · show path.parent ∈ (fs.mkdirParents path.parent).dirs
    exact mem_dirs_mkdirParents fs path.parent
  · show path.lockMarker ∈
      ((path.lockMarker, "") :: (fs.mkdirParents path.parent).entries).map Prod.fst
    exact List.mem_cons.mpr (Or.inl rfl)

/-- Witness for C10: first acquire on an empty filesystem (no directories
at all, so the parent is missing). -/
theorem c10_acquire_creates_parent_dirs_witness :
    ∃ fs1, acquireLock ⟨[], []⟩ [] ⟨["data"], "f.yaml"⟩ 10 (fun _ => 0) (fun _ => 7) 5
        = .ok ⟨⟨["data"], "f.yaml"⟩, 7⟩ fs1
            ((⟨["data"], "f.yaml"⟩, (⟨⟨["data"], "f.yaml"⟩, 7⟩ : FileLock))
              :: removeKey [] ⟨["data"], "f.yaml"⟩) 1 ∧
      ["data"] ∈ fs1.dirs ∧ FPath.lockMarker ⟨["data"], "f.yaml"⟩ ∈ fs1.filePaths :=
  c10_acquire_creates_parent_dirs ⟨[], []⟩ [] ⟨["data"], "f.yaml"⟩ 10
    (fun _ => 0) (fun _ => 7) 4 (by decide) (by decide)

theorem splitSlash_no_slash (cs : List Char) (h : ('/' : Char) ∉ cs) :
    splitSlash cs = [cs] := by
  induction cs with
  | nil => rfl
  | cons c rest ih =>
    have hcr : ('/' : Char) ∉ rest := fun hm => h (List.mem_cons_of_mem c hm)
    have hcc : ¬ c = '/' := by
      intro hcc
      exact h (hcc ▸ List.mem_cons_self c rest)
    rw [splitSlash.eq_def]
    dsimp only
    rw [ih hcr]
    dsimp only
    rw [if_neg hcc]

/-- C6: `_validate_glob_pattern` fails with the invalid-pattern error
(a `ValueError`, the spec's `InvalidPattern`) for every pattern that
contains `..`, starts with `/`, or begins with an ASCII letter followed by
`:`; in particular `"../*"`, `"/etc/*"` and `"C:\*"` are rejected with
their respective messages, while `"*.txt"` is accepted. -/
theorem c6_validate_pattern_rejects_traversal (p : String) :
    ((containsSeq "..".toList p.toList = true ∨ beginsWith "/".toList p.toList = true ∨
      (∃ c0 c1 rest, p.toList = c0 :: c1 :: rest ∧ c1 = ':' ∧ c0.isAlpha = true)) →
      ∃ m, validateGlobPattern p = .error (.invalidPatternErr m)) ∧
    validateGlobPattern "../*"
      = .error (.invalidPatternErr "Glob pattern cannot contain '..' for security reasons") ∧
    validateGlobPattern "/etc/*"
      = .error (.invalidPatternErr "Glob pattern cannot be an absolute path for security reasons") ∧
    validateGlobPattern "C:\\*"
      = .error (.invalidPatternErr "Glob pattern cannot contain drive letters for security reasons") ∧
    validateGlobPattern "*.txt" = .ok () := by
  refine ⟨?_, rfl, rfl, rfl, rfl⟩
  intro hbad
  have hpne : ¬ p = "" := by
    intro hp
    subst hp
    rcases hbad with h | h | ⟨c0, c1, rest, h, -, -⟩
    · exact absurd h (by decide)
    · exact absurd h (by decide)
    · exact absurd h (by simp [String.toList])
  unfold validateGlobPattern
  rw [if_neg hpne]
  by_cases h1 : containsSeq "..".toList p.toList = true
  · rw [if_pos h1]
    exact ⟨_, rfl⟩
  · rw [if_neg h1]
    by_cases h2 : beginsWith "/".toList p.toList = true
    · rw [if_pos h2]
      exact ⟨_, rfl⟩
    · rw [if_neg h2]
      rcases hbad with h | h | ⟨c0, c1, rest, hcons, hc1, hc0⟩
      · exact absurd h h1
      · exact absurd h h2
      · rw [hcons]
        dsimp only
        rw [if_pos ⟨hc1, hc0⟩]
        exact ⟨_, rfl⟩

/-- Witness for C6, discharging the rejection hypothesis at `"../*"` and
pairing it with the concrete acceptance of `"*.txt"`. -/
theorem c6_validate_pattern_witness :
    (∃ m, validateGlobPattern "../*" = .error (.invalidPatternErr m)) ∧
    validateGlobPattern "*.txt" = .ok () :=
  ⟨(c6_validate_pattern_rejects_traversal "../*").1 (Or.inl (by decide)),
    (c6_validate_pattern_rejects_traversal "*.txt").2.2.2.2⟩

theorem globSel_single (dirs : List (List String)) (sg : List Char)
    (cur rel : List String) (hne : ¬ sg = "**".toList)
    (h : globSel dirs [sg] cur rel = true) : rel.length = 1 := by
  rw [globSel.eq_def] at h
  dsimp only at h
  rw [if_neg hne] at h
  cases rel with
  | nil => exact Bool.noConfusion h
  | cons r rs =>
    cases rs with
    | nil => rfl
    | cons r2 rs2 => exact Bool.noConfusion h

/-- C7 counterexample: the claim quantifies over *every valid pattern*, but
`Path.glob` descends for multi-segment patterns, which pass
`_validate_glob_pattern`.  On a directory holding `a.txt` and `sub/b.txt`,
listing with the valid pattern `"sub/*"` returns `dir/sub/b.txt` — an
entry of a nested subdirectory, not an immediate child. -/
theorem c7_counterexample :
    listDirectory c7fs ["dir"] "sub/*" = .ok [["dir", "sub", "b.txt"]] ∧
    ¬ (["dir", "sub", "b.txt"] : List String).length = (["dir"] : List String).length + 1 := by
  constructor
  · simp [listDirectory, validateGlobPattern, containsSeq, beginsWith, c7fs,
      listDirectorySync, pathGlob, FS.allPaths, FPath.comps, globMatch, splitSlash,
      globSel, dirChain, matchSeg]
  · decide

/-- C7 (amended): `list_directory` validates the pattern before touching
the filesystem (an invalid pattern yields that error for every filesystem
state), fails with `DirectoryNotFoundError` when the path is absent or is
not a directory, and for every pattern that contains neither a path
separator nor `**` returns only immediate children of the directory
(entries extending the path by exactly one component); the recursive
pattern `**`, which passes validation, instead returns the directory
itself among its results, and multi-segment patterns may descend. -/
theorem c7_list_directory_immediate_children (fs : FS) (path : List String)
    (pattern : String) :
    (∀ e, validateGlobPattern pattern = .error e →
      listDirectory fs path pattern = .error e) ∧
    (validateGlobPattern pattern = .ok () → path ∉ fs.allPaths →
      listDirectory fs path pattern = .error (.dirNotFoundErr path "Directory not found")) ∧
    (validateGlobPattern pattern = .ok () → path ∈ fs.allPaths → path ∉ fs.dirs →
      listDirectory fs path pattern = .error (.dirNotFoundErr path "Path is not a directory")) ∧
    (∀ res, ('/' : Char) ∉ pattern.toList →
      ¬ containsSeq "**".toList pattern.toList = true →
      listDirectory fs path pattern = .ok res →
      ∀ q ∈ res, q.take path.length = path ∧ q.length = path.length + 1) ∧
    (∀ res, listDirectory fs path "**" = .ok res → path ∈ res) := by
  refine ⟨?_, ?_, ?_, ?_, ?_⟩
  · intro e he
    unfold listDirectory
    rw [he]
  · intro hok habs
    unfold listDirectory
    rw [hok]
    unfold listDirectorySync
    rw [if_pos habs]
  · intro hok hex hnd
    unfold listDirectory
    rw [hok]
    unfold listDirectorySync
    rw [if_neg (not_not_intro hex), if_pos hnd]
  · intro res hsl hns hres q hq
    unfold listDirectory at hres
    cases hv : validateGlobPattern pattern with
    | error e => rw [hv] at hres; exact absurd hres (by simp)
    | ok u =>
      rw [hv] at hres
      unfold listDirectorySync at hres
      by_cases habs : path ∉ fs.allPaths
      · rw [if_pos habs] at hres
        exact absurd hres (by simp)
      · rw [if_neg habs] at hres
        by_cases hnd : path ∉ fs.dirs
        · rw [if_pos hnd] at hres
          exact absurd hres (by simp)
        · rw [if_neg hnd] at hres
          unfold pathGlob at hres
          rw [splitSlash_no_slash pattern.toList hsl] at hres
          have hcond : ¬ (([pattern.toList] : List (List Char)).any
              (fun sg => containsSeq "**".toList sg && decide (sg ≠ "**".toList)) = true) := by
            simp only [List.any_cons, List.any_nil, Bool.or_false, Bool.and_eq_true]
            intro hc
            exact hns hc.1
          rw [if_neg hcond] at hres
          have hres2 : fs.allPaths.filter (globMatch fs.dirs path pattern) = res :=
            Except.ok.inj hres
          rw [← hres2] at hq
          rw [List.mem_filter] at hq
          have hgm := hq.2
          unfold globMatch at hgm
          rw [Bool.and_eq_true] at hgm
          obtain ⟨htake, hsel⟩ := hgm
          have htake2 : q.take path.length = path := of_decide_eq_true htake
          rw [splitSlash_no_slash pattern.toList hsl] at hsel
          have hne : ¬ pattern.toList = "**".toList := by
            intro he
            rw [he] at hns
            exact hns (by decide)
          have hlen : (q.drop path.length).length = 1 :=
            globSel_single fs.dirs pattern.toList path (q.drop path.length) hne hsel
          refine ⟨htake2, ?_⟩
          have hle : path.length ≤ q.length := by
            have hq' := congrArg List.length htake2
            rw [List.length_take] at hq'
            omega
          rw [List.length_drop] at hlen
          omega
  · intro res hres
    unfold listDirectory at hres
    have hv : validateGlobPattern "**" = .ok () := rfl
    rw [hv] at hres
    unfold listDirectorySync at hres
    by_cases habs : path ∉ fs.allPaths
    · rw [if_pos habs] at hres
      exact absurd hres (by simp)
    · rw [if_neg habs] at hres
      by_cases hnd : path ∉ fs.dirs
      · rw [if_pos hnd] at hres
        exact absurd hres (by simp)
      · rw [if_neg hnd] at hres
        unfold pathGlob at hres
        have hsplit : splitSlash "**".toList = ["**".toList] := rfl
        rw [hsplit] at hres
        have hcond : ¬ ((["**".toList] : List (List Char)).any
            (fun sg => containsSeq "**".toList sg && decide (sg ≠ "**".toList)) = true) := by
          decide
        rw [if_neg hcond] at hres
        have hres2 : fs.allPaths.filter (globMatch fs.dirs path "**") = res :=
          Except.ok.inj hres
        rw [← hres2]
        rw [List.mem_filter]
        refine ⟨not_not.mp habs, ?_⟩
        unfold globMatch
        rw [Bool.and_eq_true]
        refine ⟨decide_eq_true (List.take_length path), ?_⟩
        rw [hsplit, List.drop_length]
        have hgs : globSel fs.dirs ["**".toList] path [] = dirChain fs.dirs path [] := by
          simp [globSel]
        rw [hgs]
        simp only [dirChain]
        exact decide_eq_true (not_not.mp hnd)

/-- Witness for C7's amended listing property on the counterexample
filesystem: the default pattern `"*"` yields exactly the two immediate
children `dir/a.txt` and `dir/sub`, never `dir/sub/b.txt`, while the
recursive pattern `"**"` yields the directory `dir` itself together with
its descendant directory `dir/sub`. -/
theorem c7_list_directory_witness :
    (listDirectory c7fs ["dir"] "*" = .ok [["dir", "a.txt"], ["dir", "sub"]] ∧
      ∀ q ∈ [(["dir", "a.txt"] : List String), ["dir", "sub"]],
        q.take 1 = ["dir"] ∧ q.length = 1 + 1) ∧
    (listDirectory c7fs ["dir"] "**" = .ok [["dir"], ["dir", "sub"]] ∧
      ["dir"] ∈ [(["dir"] : List String), ["dir", "sub"]]) := by
  have heval : listDirectory c7fs ["dir"] "*" = .ok [["dir", "a.txt"], ["dir", "sub"]] := by
    simp [listDirectory, validateGlobPattern, containsSeq, beginsWith, c7fs,
      listDirectorySync, pathGlob, FS.allPaths, FPath.comps, globMatch, splitSlash,
      globSel, dirChain, matchSeg]
  have heval2 : listDirectory c7fs ["dir"] "**" = .ok [["dir"], ["dir", "sub"]] := by
    simp [listDirectory, validateGlobPattern, containsSeq, beginsWith, c7fs,
      listDirectorySync, pathGlob, FS.allPaths, FPath.comps, globMatch, splitSlash,
      globSel, dirChain, matchSeg]
  refine ⟨⟨heval, ?_⟩, heval2, ?_⟩
  · exact (c7_list_directory_immediate_children c7fs ["dir"] "*").2.2.2.1
      [["dir", "a.txt"], ["dir", "sub"]] (by decide) (by decide) heval
  · exact (c7_list_directory_immediate_children c7fs ["dir"] "**").2.2.2.2
      [["dir"], ["dir", "sub"]] heval2

end Chosen
